import Mathlib

/-!
Verification of the Dye League stat tracker's aggregation and registry
reconciliation core (utils/merge_stats.py and utils/registry.py).

Python dicts are modelled as association lists `List (String × α)` with
insertion-order semantics: updating an existing key replaces its value in
place, inserting a fresh key appends at the end, and iteration follows the
list order.  Machine integers are modelled as `Int` (Python ints are
unbounded).  Fallible operations return `Option`.
-/

/-! ## Association-list model of Python dicts -/

/-- Lookup of a key in a dict (first match wins; dicts built by the code
have unique keys). Models `d[k]` / `d.get(k)`. -/
def dlookup {α : Type} : List (String × α) → String → Option α
  | [], _ => none
  | p :: rest, k => if p.1 = k then some p.2 else dlookup rest k

/-- Lookup with a default. Models `d.get(k, v0)`. -/
def dgetD {α : Type} (d : List (String × α)) (k : String) (v0 : α) : α :=
  (dlookup d k).getD v0

/-- Key membership. Models `k in d`. -/
def dcontains {α : Type} (d : List (String × α)) (k : String) : Bool :=
  (dlookup d k).isSome

/-- Assignment `d[k] = v`: replace in place when the key exists, else
append at the end (CPython dict semantics). -/
def dinsert {α : Type} : List (String × α) → String → α → List (String × α)
  | [], k, v => [(k, v)]
  | p :: rest, k, v => if p.1 = k then (k, v) :: rest else p :: dinsert rest k v

/-- In-place update of the value stored at a key; no-op when the key is
absent (call sites only use it on keys known to be present). -/
def dmodify {α : Type} : List (String × α) → String → (α → α) → List (String × α)
  | [], _, _ => []
  | p :: rest, k, f => if p.1 = k then (p.1, f p.2) :: rest else p :: dmodify rest k f

/-- The key list of a dict, in iteration order. Models `d.keys()`. -/
def dkeys {α : Type} (d : List (String × α)) : List String :=
  d.map Prod.fst

/-! ## Stat schema (merge_stats.PLAYER_STAT_KEYS / TEAM_STAT_KEYS) -/

abbrev StatMap := List (String × Int)
abbrev StatDict := List (String × StatMap)
abbrev WeekDict := List (String × StatDict)

def PLAYER_STAT_KEYS : List String :=
  ["points", "throws", "table_hits", "catches", "missed_catches",
   "sinks", "rim_hits", "rounds_won", "series_won"]

def TEAM_STAT_KEYS : List String :=
  ["total_points", "total_throws", "total_table_hits", "total_catches",
   "total_missed_catches", "total_sinks", "total_rim_hits",
   "total_rounds_won", "total_series_won"]

/-- The zeroed map `{k: 0 for k in keys}` used as the defaultdict default. -/
def defaultSchema (keys : List String) : StatMap :=
  keys.map fun k => (k, 0)

/-! ## Calendar arithmetic (datetime.fromisoformat / date.isocalendar)

The source calls the Python standard library; the definitions below are a
direct port of CPython's proleptic-Gregorian ordinal and `isocalendar`
computation (`datetime._ymd2ord`, `datetime._isoweek1monday`). -/

def isLeap (y : Nat) : Bool :=
  (y % 4 == 0 && y % 100 != 0) || y % 400 == 0

def daysInMonth (y m : Nat) : Nat :=
  if m = 2 then (if isLeap y then 29 else 28)
  else if m = 4 || m = 6 || m = 9 || m = 11 then 30
  else 31

/-- Days in year `y` strictly before month `m`. -/
def daysBeforeMonth (y m : Nat) : Nat :=
  (List.range (m - 1)).foldl (fun acc i => acc + daysInMonth y (i + 1)) 0

/-- Proleptic Gregorian ordinal of the date, with 0001-01-01 as day 1
(CPython `_ymd2ord`). -/
def toOrdinalN (y m d : Nat) : Nat :=
  (y - 1) * 365 + (y - 1) / 4 - (y - 1) / 100 + (y - 1) / 400
    + daysBeforeMonth y m + d

/-- Ordinal of the Monday starting ISO week 1 of year `y`
(CPython `_isoweek1monday`; Monday = weekday 0, Thursday = 3). -/
def week1monday (y : Nat) : Int :=
  let firstday : Int := toOrdinalN y 1 1
  let firstweekday : Int := (firstday + 6) % 7
  let w1m := firstday - firstweekday
  if firstweekday > 3 then w1m + 7 else w1m

/-- ISO (week-year, week-number) of a date, ported from CPython
`date.isocalendar` (the weekday component is unused by the tracker). -/
def isocalendarYW (y m d : Nat) : Nat × Nat :=
  let today : Int := toOrdinalN y m d
  let week : Int := (today - week1monday y).ediv 7
  if week < 0 then
    (y - 1, (((today - week1monday (y - 1)).ediv 7) + 1).toNat)
  else if 52 ≤ week ∧ week1monday (y + 1) ≤ today then
    (y + 1, 1)
  else
    (y, (week + 1).toNat)

/-- Split a character list on the `-` separator, keeping empty groups
(the grouping `datetime.fromisoformat` sees in a `YYYY-MM-DD` string). -/
def splitDash : List Char → List (List Char)
  | [] => [[]]
  | c :: rest =>
    match splitDash rest with
    | [] => []
    | g :: gs => if c = '-' then [] :: g :: gs else (c :: g) :: gs

/-- Parse a non-empty all-digit character group as a number. -/
def digitsToNat? (cs : List Char) : Option Nat :=
  if cs ≠ [] ∧ cs.all (fun c => c.isDigit) then
    some (cs.foldl (fun acc c => acc * 10 + (c.toNat - 48)) 0)
  else none

/-- Parse an ISO `YYYY-MM-DD` date string, validating ranges the way
`datetime.fromisoformat` does; `none` models the raised `ValueError`. -/
def parseIsoDate (s : String) : Option (Nat × Nat × Nat) :=
  match splitDash s.data with
  | [ys, ms, ds] =>
    if ys.length = 4 ∧ ms.length = 2 ∧ ds.length = 2 then
      match digitsToNat? ys, digitsToNat? ms, digitsToNat? ds with
      | some y, some m, some d =>
        if 1 ≤ y ∧ m ≤ 12 ∧ 1 ≤ m ∧ 1 ≤ d ∧ d ≤ daysInMonth y m then
          some (y, m, d)
        else none
      | _, _, _ => none
    else none
  | _ => none

/-- Zero-pad a week number to two digits (the `{week:02d}` format). -/
def pad2 (n : Nat) : String :=
  if n < 10 then "0" ++ toString n else toString n

/-- merge_stats._iso_week_key: ISO week key `YYYY-Www` of an ISO date
string; `none` models the exception raised on an unparseable date. -/
def _iso_week_key (date_str : String) : Option String :=
  (parseIsoDate date_str).map fun ymd =>
    let yw := isocalendarYW ymd.1 ymd.2.1 ymd.2.2
    toString yw.1 ++ "-W" ++ pad2 yw.2

/-! ## Aggregator (merge_stats.merge_all) -/

/-- merge_stats._add_stats: accumulate `src` into `dst` over the schema
`keys`; only schema keys are read from `src` (defaulting to 0) and only
schema keys are written into `dst`. -/
def _add_stats (dst src : StatMap) (keys : List String) : StatMap :=
  keys.foldl (fun d k => dinsert d k (dgetD d k 0 + dgetD src k 0)) dst

/-- One parsed series_summary.json record, as read by merge_all:
`date` is absent or a string, `players` and `teams` are name-keyed
stat maps. -/
structure SeriesRec where
  date : Option String
  players : StatDict
  teams : StatDict
deriving DecidableEq

/-- A record's date is truthy (present and non-empty), i.e. `if not date`
does not skip it. -/
def datedB (r : SeriesRec) : Bool :=
  match r.date with
  | none => false
  | some ds => !(ds == "")

/-- The week key a dated record buckets under, when its date parses. -/
def keyOf? (r : SeriesRec) : Option String :=
  match r.date with
  | none => none
  | some ds => if ds = "" then none else _iso_week_key ds

/-- The in-flight accumulation state of merge_all's record loop:
two week-keyed dicts (weekly_players / weekly_teams) and two season
dicts (season_players / season_teams), all defaultdicts in the source. -/
structure MergeState where
  weekly_players : WeekDict
  weekly_teams : WeekDict
  season_players : StatDict
  season_teams : StatDict
deriving DecidableEq

/-- Fold one `(name, stats)` entry of a record block into the pair of a
weekly dict (at week `wk`) and a season dict, exactly as the body of the
per-player / per-team loops does: the defaultdict materialises the zeroed
schema on first access and `_add_stats` accumulates into it. -/
def accumEntity (sch : List String) (wk : String)
    (ws : WeekDict × StatDict) (pp : String × StatMap) : WeekDict × StatDict :=
  let inner := dgetD ws.1 wk []
  let inner' := dinsert inner pp.1
    (_add_stats (dgetD inner pp.1 (defaultSchema sch)) pp.2 sch)
  (dinsert ws.1 wk inner',
   dinsert ws.2 pp.1 (_add_stats (dgetD ws.2 pp.1 (defaultSchema sch)) pp.2 sch))

/-- Process one record of the merge loop: skip when the date is missing or
empty, fail (`none`) when a truthy date does not parse, otherwise
accumulate the players block then the teams block. -/
def stepRecord (s : MergeState) (r : SeriesRec) : Option MergeState :=
  match r.date with
  | none => some s
  | some ds =>
    if ds = "" then some s
    else
      match _iso_week_key ds with
      | none => none
      | some wk =>
        let pws := r.players.foldl (accumEntity PLAYER_STAT_KEYS wk)
          (s.weekly_players, s.season_players)
        let tws := r.teams.foldl (accumEntity TEAM_STAT_KEYS wk)
          (s.weekly_teams, s.season_teams)
        some ⟨pws.1, tws.1, pws.2, tws.2⟩

/-- The record loop of merge_all. -/
def mergeLoop (rs : List SeriesRec) (s : MergeState) : Option MergeState :=
  match rs with
  | [] => some s
  | r :: rest =>
    match stepRecord s r with
    | none => none
    | some s' => mergeLoop rest s'

/-- Insert a string into a sorted list (ascending). -/
def insertStr (x : String) : List String → List String
  | [] => [x]
  | y :: ys => if x ≤ y then x :: y :: ys else y :: insertStr x ys

/-- Ascending sort of strings, modelling `sorted(...)` on the week keys. -/
def sortStrs (l : List String) : List String :=
  l.foldr insertStr []

/-- One finalized weekly report entry: the `players` / `teams` maps of a
week. -/
structure WeekBucket where
  players : StatDict
  teams : StatDict
deriving DecidableEq

/-- The season_totals dict: `players` and `teams` maps. -/
structure SeasonTotals where
  players : StatDict
  teams : StatDict
deriving DecidableEq

/-- Finalization of merge_all: the weekly reports are keyed by the sorted
keys of weekly_players (weekly_teams is only consulted per such key, via
its defaultdict read), and season totals are the two season dicts. -/
def finalizeMerge (s : MergeState) : List (String × WeekBucket) × SeasonTotals :=
  ((sortStrs (dkeys s.weekly_players)).map fun wk =>
      (wk, ⟨dgetD s.weekly_players wk [], dgetD s.weekly_teams wk []⟩),
   ⟨s.season_players, s.season_teams⟩)

/-- merge_stats.merge_all over an in-memory list of scanned records;
`none` models the exception escaping when a truthy date fails to parse. -/
def merge_all (summaries : List SeriesRec) :
    Option (List (String × WeekBucket) × SeasonTotals) :=
  (mergeLoop summaries ⟨[], [], [], []⟩).map finalizeMerge

/-- merge_stats._scan_series_summaries: keep the records whose
series_summary.json read parsed to a truthy value (`if data:`); `none`
entries model reads that `_safe_read_json` turned into `None`. -/
def _scan_series_summaries (reads : List (Option SeriesRec)) : List SeriesRec :=
  reads.filterMap id

/-! ## Registry (utils/registry.py) -/

/-- registry._default_player_stats. -/
def _default_player_stats : StatMap :=
  [("points", 0), ("throws", 0), ("table_hits", 0), ("catches", 0),
   ("missed_catches", 0), ("sinks", 0), ("rim_hits", 0),
   ("rounds_won", 0), ("series_won", 0)]

/-- registry._default_team_stats. -/
def _default_team_stats : StatMap :=
  [("total_points", 0), ("total_throws", 0), ("total_table_hits", 0),
   ("total_catches", 0), ("total_missed_catches", 0), ("total_sinks", 0),
   ("total_rim_hits", 0), ("total_rounds_won", 0), ("total_series_won", 0)]

/-- A team's registry entry: `{"lifetime_stats": ..., "players": [...]}`. -/
structure TeamEntry where
  lifetime_stats : StatMap
  players : List String
deriving DecidableEq

abbrev TeamDict := List (String × TeamEntry)

/-- The persisted registry state: the players.json map and the teams.json
map. -/
structure Registry where
  players : StatDict
  teams : TeamDict
deriving DecidableEq

/-- registry._load_json: a missing file (`none`) reads as the empty dict. -/
def _load_json {α : Type} (file : Option (List (String × α))) : List (String × α) :=
  match file with
  | none => []
  | some d => d

/-- registry.load_registry over the two optional persisted files. -/
def load_registry (players_file : Option StatDict) (teams_file : Option TeamDict) :
    StatDict × TeamDict :=
  (_load_json players_file, _load_json teams_file)

/-- The overwrite branch body: a freshly zeroed schema populated with
every key/value of `totals` (`new_stats[k] = int(v)` for all input keys). -/
def buildOverwrite (default : StatMap) (totals : StatMap) : StatMap :=
  totals.foldl (fun ns kv => dinsert ns kv.1 kv.2) default

/-- The add branch body: `cur[k] = cur.get(k, 0) + int(v)` for every
key/value of `totals`. -/
def addInto (cur : StatMap) (totals : StatMap) : StatMap :=
  totals.foldl (fun c kv => dinsert c kv.1 (dgetD c kv.1 0 + kv.2)) cur

/-- The per-player body of update_registry_from_totals. -/
def playerTotalsStep (overwrite : Bool) (preg : StatDict)
    (pt : String × StatMap) : StatDict :=
  let preg' := if dcontains preg pt.1 then preg
               else dinsert preg pt.1 _default_player_stats
  if overwrite then
    dinsert preg' pt.1 (buildOverwrite _default_player_stats pt.2)
  else
    dmodify preg' pt.1 (fun cur => addInto cur pt.2)

/-- The per-team body of update_registry_from_totals: when the team is
created its roster is `teams_reg.get(tname, {}).get("players", [])`, and
only the `lifetime_stats` field is written afterwards. -/
def teamTotalsStep (overwrite : Bool) (treg : TeamDict)
    (tt : String × StatMap) : TeamDict :=
  let treg' :=
    if dcontains treg tt.1 then treg
    else
      dinsert treg tt.1
        ⟨_default_team_stats,
         (match dlookup treg tt.1 with
          | some e => e.players
          | none => [])⟩
  if overwrite then
    dmodify treg' tt.1 (fun e => { e with lifetime_stats := buildOverwrite _default_team_stats tt.2 })
  else
    dmodify treg' tt.1 (fun e => { e with lifetime_stats := addInto e.lifetime_stats tt.2 })

/-- registry.update_registry_from_totals as a pure transformer of the
loaded registry state, returning the saved state and the
`(players_updated, teams_updated)` counts. -/
def update_registry_from_totals (reg : Registry)
    (players_totals teams_totals : StatDict) (overwrite : Bool) :
    Registry × Nat × Nat :=
  let preg := players_totals.foldl (playerTotalsStep overwrite) reg.players
  let treg := teams_totals.foldl (teamTotalsStep overwrite) reg.teams
  (⟨preg, treg⟩, players_totals.length, teams_totals.length)

/-- registry.upsert_team as a pure transformer: the length check precedes
any load or save, so the error case produces no new registry state. -/
def upsert_team (reg : Registry) (team_name : String)
    (player_names : List String) : Except String Registry :=
  if player_names.length ≠ 2 then
    Except.error "Teams must have exactly 2 players for 2v2."
  else
    let preg := player_names.foldl
      (fun pr pn => if dcontains pr pn then pr else dinsert pr pn _default_player_stats)
      reg.players
    let treg :=
      if dcontains reg.teams team_name then
        dmodify reg.teams team_name (fun e => { e with players := player_names })
      else
        dinsert reg.teams team_name ⟨_default_team_stats, player_names⟩
    Except.ok ⟨preg, treg⟩

/-! ## Observation functions used to state the properties -/

/-- The stat value an entity has for key `k` in a name-keyed stat dict
(0 when the entity or the key is absent). -/
def sval (d : StatDict) (name k : String) : Int :=
  match dlookup d name with
  | some sm => dgetD sm k 0
  | none => 0

/-- The stat value an entity has for key `k` in week `wk` of a week-keyed
dict (0 when the week is absent). -/
def wval (w : WeekDict) (wk name k : String) : Int :=
  sval (dgetD w wk []) name k

/-- The total contribution of one record block to entity `name` at key
`k`: the sum of `src.get(k, 0)` over the block entries for that name. -/
def contrib (block : StatDict) (name k : String) : Int :=
  (block.map fun e => if e.1 = name then dgetD e.2 k 0 else 0).sum

/-! ## Specification-side ISO week definitions (for claim C4)

ISO 8601 assigns a date to the week-year of the Thursday of its week
(weeks run Monday to Sunday), and numbers the weeks of a week-year from
1 in order.  These definitions follow those words directly, independently
of the CPython algorithm ported above. -/

/-- Ordinal of the Thursday of the ISO week containing the date
(Monday = weekday 0). -/
def specThursday (y m d : Nat) : Int :=
  let t : Int := toOrdinalN y m d
  t - (t + 6) % 7 + 3

/-- The ISO week-year: the calendar year the Thursday of the date's week
falls in (it is always `y - 1`, `y` or `y + 1`). -/
def specIsoYear (y m d : Nat) : Nat :=
  if specThursday y m d < (toOrdinalN y 1 1 : Int) then y - 1
  else if ((toOrdinalN (y + 1) 1 1 : Int)) ≤ specThursday y m d then y + 1
  else y

/-- The ISO week number: one more than the number of whole weeks between
the week-year's first Thursday-anchored week and this one. -/
def specIsoWeek (y m d : Nat) : Nat :=
  ((specThursday y m d - (toOrdinalN (specIsoYear y m d) 1 1 : Int)).ediv 7 + 1).toNat

/-- Exhaustive agreement of the ported `isocalendar` with the ISO 8601
Thursday rule over every valid date of the years 2015 through 2030. -/
def isoAgreeBool : Bool :=
  (List.range 16).all fun dy =>
    (List.range 12).all fun dm =>
      (List.range (daysInMonth (2015 + dy) (dm + 1))).all fun dd =>
        isocalendarYW (2015 + dy) (dm + 1) (dd + 1)
          == (specIsoYear (2015 + dy) (dm + 1) (dd + 1),
              specIsoWeek (2015 + dy) (dm + 1) (dd + 1))

/-- A concrete record with an empty players map but team data: a dated
series whose teams totals reach the season dict while its week never
enters the weekly output (which is keyed off weekly player data only). -/
def cexRecord6 : SeriesRec :=
  ⟨some "2025-06-02", [], [("T", [("total_points", 5)])]⟩

/-- A concrete dated record with player data, for witness instances. -/
def witRecord2 : SeriesRec :=
  ⟨some "2025-06-02", [("Ana", [("points", 10), ("sinks", 2)])], []⟩

/-- The full-schema stat map merge_all produces for Ana from
`witRecord2`. -/
def witAnaMap : StatMap :=
  [("points", 10), ("throws", 0), ("table_hits", 0), ("catches", 0),
   ("missed_catches", 0), ("sinks", 2), ("rim_hits", 0),
   ("rounds_won", 0), ("series_won", 0)]

/-- A concrete dated record with both player and team data. -/
def witRecord6 : SeriesRec :=
  ⟨some "2025-06-02", [("Ana", [("points", 10)])], [("T", [("total_points", 5)])]⟩

/-! ## Lemmas about the dict model -/

theorem dlookup_dinsert_self {α : Type} (d : List (String × α)) (k : String) (v : α) :
    dlookup (dinsert d k v) k = some v := by
  induction d with
  | nil => simp [dinsert, dlookup]
  | cons p rest ih =>
    by_cases h : p.1 = k
    · simp [dinsert, dlookup, h]
    · simp [dinsert, dlookup, h, ih]

theorem dlookup_dinsert_ne {α : Type} (d : List (String × α)) {k k' : String} (v : α)
    (h : k' ≠ k) : dlookup (dinsert d k v) k' = dlookup d k' := by
  have hkk : ¬(k = k') := fun hh => h hh.symm
  induction d with
  | nil => simp [dinsert, dlookup, hkk]
  | cons p rest ih =>
    by_cases hp : p.1 = k
    · simp [dinsert, dlookup, hp, hkk]
    · simp [dinsert, dlookup, hp, ih]

theorem dinsert_eq_self {α : Type} {d : List (String × α)} {k : String} {v : α}
    (h : dlookup d k = some v) : dinsert d k v = d := by
  induction d with
  | nil => simp [dlookup] at h
  | cons p rest ih =>
    by_cases hp : p.1 = k
    · simp only [dlookup, if_pos hp] at h
      have hv : p.2 = v := by injection h
      simp only [dinsert, if_pos hp]
      rw [← hp, ← hv]
    · simp only [dlookup, if_neg hp] at h
      simp only [dinsert, if_neg hp, ih h]

theorem dinsert_dinsert {α : Type} (d : List (String × α)) (k : String) (v w : α) :
    dinsert (dinsert d k v) k w = dinsert d k w := by
  induction d with
  | nil => simp [dinsert]
  | cons p rest ih =>
    by_cases hp : p.1 = k
    · simp [dinsert, hp]
    · simp [dinsert, hp, ih]

theorem dlookup_dmodify_self {α : Type} (d : List (String × α)) (k : String) (f : α → α) :
    dlookup (dmodify d k f) k = (dlookup d k).map f := by
  induction d with
  | nil => simp [dmodify, dlookup]
  | cons p rest ih =>
    by_cases hp : p.1 = k
    · simp [dmodify, dlookup, hp]
    · simp [dmodify, dlookup, hp, ih]

theorem dlookup_dmodify_ne {α : Type} (d : List (String × α)) {k k' : String} (f : α → α)
    (h : k' ≠ k) : dlookup (dmodify d k f) k' = dlookup d k' := by
  induction d with
  | nil => simp [dmodify]
  | cons p rest ih =>
    by_cases hp : p.1 = k
    · have hkk : ¬(k = k') := fun hh => h hh.symm
      simp [dmodify, dlookup, hp, hkk]
    · simp [dmodify, dlookup, hp, ih]

theorem dmodify_eq_self {α : Type} {d : List (String × α)} {k : String} {f : α → α}
    (h : ∀ v, dlookup d k = some v → f v = v) : dmodify d k f = d := by
  induction d with
  | nil => simp [dmodify]
  | cons p rest ih =>
    by_cases hp : p.1 = k
    · have h2 := h p.2 (by simp [dlookup, hp])
      simp only [dmodify, if_pos hp, h2]
    · have h' : ∀ v, dlookup rest k = some v → f v = v := by
        intro v hv
        exact h v (by simp [dlookup, hp, hv])
      simp only [dmodify, if_neg hp, ih h']

theorem dlookup_mem {α : Type} {d : List (String × α)} {k : String} {v : α}
    (h : dlookup d k = some v) : (k, v) ∈ d := by
  induction d with
  | nil => simp [dlookup] at h
  | cons p rest ih =>
    by_cases hp : p.1 = k
    · simp only [dlookup, if_pos hp] at h
      have hv : p.2 = v := by injection h
      rw [← hp, ← hv]
      exact List.mem_cons_self _ _
    · simp only [dlookup, if_neg hp] at h
      exact List.mem_cons_of_mem _ (ih h)

theorem mem_dinsert {α : Type} {d : List (String × α)} {k : String} {v : α} {x : String × α}
    (h : x ∈ dinsert d k v) : x ∈ d ∨ x = (k, v) := by
  induction d with
  | nil =>
    simp only [dinsert, List.mem_singleton] at h
    exact Or.inr h
  | cons p rest ih =>
    by_cases hp : p.1 = k
    · simp only [dinsert, if_pos hp, List.mem_cons] at h
      rcases h with h | h
      · exact Or.inr h
      · exact Or.inl (List.mem_cons_of_mem _ h)
    · simp only [dinsert, if_neg hp, List.mem_cons] at h
      rcases h with h | h
      · exact Or.inl (h ▸ List.mem_cons_self _ _)
      · rcases ih h with h' | h'
        · exact Or.inl (List.mem_cons_of_mem _ h')
        · exact Or.inr h'

theorem dkeys_dinsert_of_contains {α : Type} {d : List (String × α)} {k : String} (v : α)
    (h : dcontains d k = true) : dkeys (dinsert d k v) = dkeys d := by
  induction d with
  | nil => simp [dcontains, dlookup] at h
  | cons p rest ih =>
    by_cases hp : p.1 = k
    · simp [dinsert, dkeys, hp]
    · have h' : dcontains rest k = true := by
        simpa [dcontains, dlookup, hp] using h
      simp [dinsert, dkeys, hp]
      simpa [dkeys] using ih h'

theorem dkeys_dinsert_of_not_contains {α : Type} {d : List (String × α)} {k : String} (v : α)
    (h : dcontains d k = false) : dkeys (dinsert d k v) = dkeys d ++ [k] := by
  induction d with
  | nil => simp [dinsert, dkeys]
  | cons p rest ih =>
    have hp : ¬(p.1 = k) := by
      intro hh
      simp [dcontains, dlookup, hh] at h
    have h' : dcontains rest k = false := by
      simpa [dcontains, dlookup, hp] using h
    simp only [dinsert, if_neg hp, dkeys, List.map_cons, List.cons_append]
    congr 1
    simpa [dkeys] using ih h'

theorem mem_dkeys {α : Type} {d : List (String × α)} {k : String} :
    k ∈ dkeys d ↔ (dlookup d k).isSome := by
  induction d with
  | nil => simp [dkeys, dlookup]
  | cons p rest ih =>
    simp only [dkeys, List.map_cons, List.mem_cons, dlookup]
    by_cases hp : p.1 = k
    · simp [hp]
    · have hp' : ¬(k = p.1) := fun hh => hp hh.symm
      simp only [if_neg hp, hp', false_or]
      simpa [dkeys] using ih

theorem nodup_dkeys_dinsert {α : Type} {d : List (String × α)} (k : String) (v : α)
    (h : (dkeys d).Nodup) : (dkeys (dinsert d k v)).Nodup := by
  by_cases hc : dcontains d k
  · rw [dkeys_dinsert_of_contains v hc]
    exact h
  · rw [dkeys_dinsert_of_not_contains v (by simpa using hc)]
    rw [List.nodup_append]
    refine ⟨h, List.nodup_singleton k, ?_⟩
    intro a ha hb
    simp only [List.mem_singleton] at hb
    subst hb
    rw [mem_dkeys] at ha
    simp [dcontains, ha] at hc

theorem mem_dkeys_dinsert_self {α : Type} (d : List (String × α)) (k : String) (v : α) :
    k ∈ dkeys (dinsert d k v) := by
  rw [mem_dkeys, dlookup_dinsert_self]
  rfl

theorem mem_dkeys_dinsert_mono {α : Type} {d : List (String × α)} {a : String}
    (k : String) (v : α) (h : a ∈ dkeys d) : a ∈ dkeys (dinsert d k v) := by
  by_cases hak : a = k
  · subst hak
    exact mem_dkeys_dinsert_self d a v
  · rw [mem_dkeys] at h ⊢
    rw [dlookup_dinsert_ne _ _ hak]
    exact h

/-! ## Lemmas about _add_stats and the schema defaults -/

theorem dgetD_dinsert_self {α : Type} (d : List (String × α)) (k : String) (v v0 : α) :
    dgetD (dinsert d k v) k v0 = v := by
  simp [dgetD, dlookup_dinsert_self]

theorem dgetD_dinsert_ne {α : Type} (d : List (String × α)) {k k' : String} (v v0 : α)
    (h : k' ≠ k) : dgetD (dinsert d k v) k' v0 = dgetD d k' v0 := by
  simp [dgetD, dlookup_dinsert_ne _ _ h]

theorem dlookup_defaultSchema {keys : List String} {k : String} (h : k ∈ keys) :
    dlookup (defaultSchema keys) k = some 0 := by
  induction keys with
  | nil => simp at h
  | cons k0 rest ih =>
    by_cases hk : k0 = k
    · simp [defaultSchema, dlookup, hk]
    · have : k ∈ rest := by
        rcases List.mem_cons.mp h with h' | h'
        · exact absurd h'.symm hk
        · exact h'
      simpa [defaultSchema, dlookup, hk] using ih this

theorem dgetD_defaultSchema {keys : List String} {k : String} (h : k ∈ keys) :
    dgetD (defaultSchema keys) k 0 = 0 := by
  simp [dgetD, dlookup_defaultSchema h]

theorem add_stats_lookup_not_mem {dst src : StatMap} {keys : List String} {k : String}
    (h : k ∉ keys) : dlookup (_add_stats dst src keys) k = dlookup dst k := by
  induction keys generalizing dst with
  | nil => rfl
  | cons k0 rest ih =>
    have hk0 : k ≠ k0 := fun hh => h (hh ▸ List.mem_cons_self _ _)
    have hrest : k ∉ rest := fun hh => h (List.mem_cons_of_mem _ hh)
    show dlookup (_add_stats (dinsert dst k0 _) src rest) k = dlookup dst k
    rw [ih hrest, dlookup_dinsert_ne _ _ hk0]

theorem add_stats_lookup_mem {dst src : StatMap} {keys : List String} {k : String}
    (hnd : keys.Nodup) (h : k ∈ keys) :
    dlookup (_add_stats dst src keys) k = some (dgetD dst k 0 + dgetD src k 0) := by
  induction keys generalizing dst with
  | nil => simp at h
  | cons k0 rest ih =>
    have hnd' : rest.Nodup := (List.nodup_cons.mp hnd).2
    have hk0nr : k0 ∉ rest := (List.nodup_cons.mp hnd).1
    by_cases hk : k = k0
    · subst hk
      show dlookup (_add_stats (dinsert dst k (dgetD dst k 0 + dgetD src k 0)) src rest) k = _
      rw [add_stats_lookup_not_mem hk0nr, dlookup_dinsert_self]
    · have hkr : k ∈ rest := by
        rcases List.mem_cons.mp h with h' | h'
        · exact absurd h' hk
        · exact h'
      show dlookup (_add_stats (dinsert dst k0 _) src rest) k = _
      rw [ih hnd' hkr, dgetD_dinsert_ne _ _ _ hk]

theorem add_stats_dkeys {dst src : StatMap} {keys ks : List String}
    (hd : dkeys dst = ks) (hsub : ∀ a ∈ keys, a ∈ ks) :
    dkeys (_add_stats dst src keys) = ks := by
  induction keys generalizing dst with
  | nil => exact hd
  | cons k0 rest ih =>
    show dkeys (_add_stats (dinsert dst k0 _) src rest) = ks
    have hc : dcontains dst k0 = true := by
      have : k0 ∈ dkeys dst := hd ▸ hsub k0 (List.mem_cons_self _ _)
      rw [mem_dkeys] at this
      simpa [dcontains] using this
    exact ih (by rw [dkeys_dinsert_of_contains _ hc, hd])
      (fun a ha => hsub a (List.mem_cons_of_mem _ ha))

theorem dkeys_defaultSchema (keys : List String) : dkeys (defaultSchema keys) = keys := by
  induction keys with
  | nil => rfl
  | cons k0 rest ih => simp [defaultSchema, dkeys] at ih ⊢; exact ih

/-! ## Lemmas about the accumulation folds of merge_all -/

theorem player_keys_nodup : PLAYER_STAT_KEYS.Nodup := by decide

theorem team_keys_nodup : TEAM_STAT_KEYS.Nodup := by decide

theorem dcontains_dinsert_mono {α : Type} {d : List (String × α)} {k' : String}
    (k : String) (v : α) (h : dcontains d k' = true) :
    dcontains (dinsert d k v) k' = true := by
  by_cases hk : k' = k
  · subst hk
    simp [dcontains, dlookup_dinsert_self]
  · simpa [dcontains, dlookup_dinsert_ne _ _ hk] using h

theorem sval_dinsert_addstats {sch : List String} {k : String}
    (hnd : sch.Nodup) (hk : k ∈ sch) (d : StatDict) (p : String × StatMap) (n : String) :
    sval (dinsert d p.1 (_add_stats (dgetD d p.1 (defaultSchema sch)) p.2 sch)) n k
      = sval d n k + (if p.1 = n then dgetD p.2 k 0 else 0) := by
  by_cases hpn : p.1 = n
  · have hbase : dgetD (dgetD d p.1 (defaultSchema sch)) k 0 = sval d n k := by
      rw [hpn]
      unfold sval dgetD
      cases hL : dlookup d n with
      | none => simpa [hL] using dgetD_defaultSchema hk
      | some sm => simp [hL, dgetD]
    unfold sval
    rw [hpn, dlookup_dinsert_self]
    simp only [hpn, if_pos]
    rw [show dgetD (_add_stats (dgetD d n (defaultSchema sch)) p.2 sch) k 0
          = dgetD (dgetD d n (defaultSchema sch)) k 0 + dgetD p.2 k 0 by
        unfold dgetD
        rw [add_stats_lookup_mem hnd hk]
        rfl]
    rw [hpn] at hbase
    rw [hbase]
    rfl
  · have hne : n ≠ p.1 := fun hh => hpn hh.symm
    unfold sval
    rw [dlookup_dinsert_ne _ _ hne]
    simp [hpn]

theorem accumEntity_fold_season {sch : List String} {k : String}
    (hnd : sch.Nodup) (hk : k ∈ sch) (block : StatDict) (ws : WeekDict × StatDict)
    (n : String) :
    sval (block.foldl (accumEntity sch wk) ws).2 n k
      = sval ws.2 n k + contrib block n k := by
  induction block generalizing ws with
  | nil => simp [contrib]
  | cons pp rest ih =>
    rw [List.foldl_cons, ih]
    have hstep : sval (accumEntity sch wk ws pp).2 n k
        = sval ws.2 n k + (if pp.1 = n then dgetD pp.2 k 0 else 0) := by
      unfold accumEntity
      exact sval_dinsert_addstats hnd hk ws.2 pp n
    rw [hstep]
    unfold contrib
    simp only [List.map_cons, List.sum_cons]
    omega

theorem wval_accumEntity {sch : List String} {k : String}
    (hnd : sch.Nodup) (hk : k ∈ sch) (ws : WeekDict × StatDict) (pp : String × StatMap)
    (wk wk' n : String) :
    wval (accumEntity sch wk ws pp).1 wk' n k
      = wval ws.1 wk' n k
        + (if wk = wk' then (if pp.1 = n then dgetD pp.2 k 0 else 0) else 0) := by
  by_cases hwk : wk = wk'
  · subst hwk
    unfold wval accumEntity
    rw [dgetD_dinsert_self]
    rw [sval_dinsert_addstats hnd hk (dgetD ws.1 wk []) pp n]
    simp
  · have hne : wk' ≠ wk := fun hh => hwk hh.symm
    unfold wval accumEntity
    rw [dgetD_dinsert_ne _ _ _ hne]
    simp [hwk]

theorem accumEntity_fold_weekly {sch : List String} {k : String}
    (hnd : sch.Nodup) (hk : k ∈ sch) (block : StatDict) (ws : WeekDict × StatDict)
    (wk wk' n : String) :
    wval (block.foldl (accumEntity sch wk) ws).1 wk' n k
      = wval ws.1 wk' n k + (if wk = wk' then contrib block n k else 0) := by
  induction block generalizing ws with
  | nil => simp [contrib]
  | cons pp rest ih =>
    rw [List.foldl_cons, ih, wval_accumEntity hnd hk ws pp wk wk' n]
    unfold contrib
    simp only [List.map_cons, List.sum_cons]
    by_cases hwk : wk = wk'
    · simp only [if_pos hwk]
      omega
    · simp [hwk]

theorem accumEntity_fold_keys_mono {sch : List String} {a : String}
    (block : StatDict) (ws : WeekDict × StatDict) (wk : String)
    (h : a ∈ dkeys ws.1) : a ∈ dkeys (block.foldl (accumEntity sch wk) ws).1 := by
  induction block generalizing ws with
  | nil => exact h
  | cons pp rest ih =>
    rw [List.foldl_cons]
    exact ih _ (mem_dkeys_dinsert_mono _ _ h)

theorem accumEntity_fold_keys_self {sch : List String}
    {block : StatDict} (hblock : block ≠ []) (ws : WeekDict × StatDict) (wk : String) :
    wk ∈ dkeys (block.foldl (accumEntity sch wk) ws).1 := by
  cases block with
  | nil => exact absurd rfl hblock
  | cons pp rest =>
    rw [List.foldl_cons]
    exact accumEntity_fold_keys_mono rest _ wk (mem_dkeys_dinsert_self _ _ _)

theorem accumEntity_fold_keys_nodup {sch : List String}
    (block : StatDict) (ws : WeekDict × StatDict) (wk : String)
    (h : (dkeys ws.1).Nodup) : (dkeys (block.foldl (accumEntity sch wk) ws).1).Nodup := by
  induction block generalizing ws with
  | nil => exact h
  | cons pp rest ih =>
    rw [List.foldl_cons]
    exact ih _ (nodup_dkeys_dinsert _ _ h)

theorem accumEntity_fold_inner_preserve {sch : List String} {wk tn : String}
    (block : StatDict) (ws : WeekDict × StatDict) (wk2 : String)
    (h : ∃ i, dlookup ws.1 wk = some i ∧ dcontains i tn = true) :
    ∃ i, dlookup (block.foldl (accumEntity sch wk2) ws).1 wk = some i
      ∧ dcontains i tn = true := by
  induction block generalizing ws with
  | nil => exact h
  | cons pp rest ih =>
    rw [List.foldl_cons]
    apply ih
    obtain ⟨i, hi, hc⟩ := h
    by_cases hwk : wk = wk2
    · subst hwk
      refine ⟨_, dlookup_dinsert_self _ _ _, ?_⟩
      have : dgetD ws.1 wk [] = i := by simp [dgetD, hi]
      rw [this]
      exact dcontains_dinsert_mono _ _ hc
    · have hne : wk ≠ wk2 := hwk
      exact ⟨i, by rw [show (accumEntity sch wk2 ws pp).1 = dinsert ws.1 wk2 _ from rfl,
        dlookup_dinsert_ne _ _ hne]; exact hi, hc⟩

theorem accumEntity_fold_inner_self {sch : List String} {wk tn : String}
    {block : StatDict} {st : StatMap} (hmem : (tn, st) ∈ block)
    (ws : WeekDict × StatDict) :
    ∃ i, dlookup (block.foldl (accumEntity sch wk) ws).1 wk = some i
      ∧ dcontains i tn = true := by
  induction block generalizing ws with
  | nil => simp at hmem
  | cons pp rest ih =>
    rw [List.foldl_cons]
    rcases List.mem_cons.mp hmem with heq | hmem'
    · apply accumEntity_fold_inner_preserve
      refine ⟨_, dlookup_dinsert_self _ _ _, ?_⟩
      have hppt : pp.1 = tn := by rw [← heq]
      rw [← hppt]
      simp [dcontains, dlookup_dinsert_self]
    · exact ih hmem' _

/-! ## Lemmas about stepRecord and mergeLoop -/

theorem stepRecord_vals {s s' : MergeState} {r : SeriesRec}
    (h : stepRecord s r = some s')
    {kp kt : String} (hkP : kp ∈ PLAYER_STAT_KEYS) (hkT : kt ∈ TEAM_STAT_KEYS)
    (n nt wk' : String) :
    sval s'.season_players n kp
        = sval s.season_players n kp + (if datedB r then contrib r.players n kp else 0)
    ∧ wval s'.weekly_players wk' n kp
        = wval s.weekly_players wk' n kp
          + (if keyOf? r = some wk' then contrib r.players n kp else 0)
    ∧ sval s'.season_teams nt kt
        = sval s.season_teams nt kt + (if datedB r then contrib r.teams nt kt else 0)
    ∧ wval s'.weekly_teams wk' nt kt
        = wval s.weekly_teams wk' nt kt
          + (if keyOf? r = some wk' then contrib r.teams nt kt else 0) := by
  rcases r with ⟨date, players, teams⟩
  cases date with
  | none =>
    simp only [stepRecord, Option.some.injEq] at h
    subst h
    simp [datedB, keyOf?]
  | some ds =>
    by_cases hds : ds = ""
    · simp only [stepRecord, if_pos hds, Option.some.injEq] at h
      subst h
      simp [datedB, keyOf?, hds]
    · simp only [stepRecord, if_neg hds] at h
      cases hiso : _iso_week_key ds with
      | none => rw [hiso] at h; cases h
      | some wk =>
        rw [hiso] at h
        simp only [Option.some.injEq] at h
        subst h
        have hdB : datedB ⟨some ds, players, teams⟩ = true := by simp [datedB, hds]
        have hkey : keyOf? ⟨some ds, players, teams⟩ = some wk := by
          simp [keyOf?, hds, hiso]
        rw [hdB, hkey]
        simp only [if_pos, Option.some.injEq]
        refine ⟨?_, ?_, ?_, ?_⟩
        · exact accumEntity_fold_season player_keys_nodup hkP players
            (s.weekly_players, s.season_players) n
        · exact accumEntity_fold_weekly player_keys_nodup hkP players
            (s.weekly_players, s.season_players) wk wk' n
        · exact accumEntity_fold_season team_keys_nodup hkT teams
            (s.weekly_teams, s.season_teams) nt
        · exact accumEntity_fold_weekly team_keys_nodup hkT teams
            (s.weekly_teams, s.season_teams) wk wk' nt

theorem mergeLoop_vals {rs : List SeriesRec} {s s1 : MergeState}
    (h : mergeLoop rs s = some s1)
    {kp kt : String} (hkP : kp ∈ PLAYER_STAT_KEYS) (hkT : kt ∈ TEAM_STAT_KEYS)
    (n nt wk' : String) :
    sval s1.season_players n kp
        = sval s.season_players n kp
          + (rs.map fun r => if datedB r then contrib r.players n kp else 0).sum
    ∧ wval s1.weekly_players wk' n kp
        = wval s.weekly_players wk' n kp
          + (rs.map fun r => if keyOf? r = some wk' then contrib r.players n kp else 0).sum
    ∧ sval s1.season_teams nt kt
        = sval s.season_teams nt kt
          + (rs.map fun r => if datedB r then contrib r.teams nt kt else 0).sum
    ∧ wval s1.weekly_teams wk' nt kt
        = wval s.weekly_teams wk' nt kt
          + (rs.map fun r => if keyOf? r = some wk' then contrib r.teams nt kt else 0).sum := by
  induction rs generalizing s with
  | nil =>
    simp only [mergeLoop, Option.some.injEq] at h
    subst h
    simp
  | cons r rest ih =>
    simp only [mergeLoop] at h
    cases hst : stepRecord s r with
    | none => rw [hst] at h; cases h
    | some s2 =>
      rw [hst] at h
      obtain ⟨ih1, ih2, ih3, ih4⟩ := ih h
      obtain ⟨h1, h2, h3, h4⟩ := stepRecord_vals hst hkP hkT n nt wk'
      simp only [List.map_cons, List.sum_cons]
      omega

theorem stepRecord_keys_mono {s s' : MergeState} {r : SeriesRec} {a : String}
    (h : stepRecord s r = some s') (ha : a ∈ dkeys s.weekly_players) :
    a ∈ dkeys s'.weekly_players := by
  rcases r with ⟨date, players, teams⟩
  cases date with
  | none =>
    simp only [stepRecord, Option.some.injEq] at h
    subst h
    exact ha
  | some ds =>
    by_cases hds : ds = ""
    · simp only [stepRecord, if_pos hds, Option.some.injEq] at h
      subst h
      exact ha
    · simp only [stepRecord, if_neg hds] at h
      cases hiso : _iso_week_key ds with
      | none => rw [hiso] at h; cases h
      | some wk =>
        rw [hiso] at h
        simp only [Option.some.injEq] at h
        subst h
        exact accumEntity_fold_keys_mono players (s.weekly_players, s.season_players) wk ha

theorem stepRecord_keys_self {s s' : MergeState} {r : SeriesRec} {wk : String}
    (h : stepRecord s r = some s') (hkey : keyOf? r = some wk) (hp : r.players ≠ []) :
    wk ∈ dkeys s'.weekly_players := by
  rcases r with ⟨date, players, teams⟩
  cases date with
  | none => simp [keyOf?] at hkey
  | some ds =>
    by_cases hds : ds = ""
    · simp [keyOf?, hds] at hkey
    · simp only [keyOf?, if_neg hds] at hkey
      simp only [stepRecord, if_neg hds, hkey, Option.some.injEq] at h
      subst h
      exact accumEntity_fold_keys_self (by simpa using hp) (s.weekly_players, s.season_players) wk

theorem mergeLoop_keys_mono {rs : List SeriesRec} {s s1 : MergeState} {a : String}
    (h : mergeLoop rs s = some s1) (ha : a ∈ dkeys s.weekly_players) :
    a ∈ dkeys s1.weekly_players := by
  induction rs generalizing s with
  | nil =>
    simp only [mergeLoop, Option.some.injEq] at h
    subst h
    exact ha
  | cons r rest ih =>
    simp only [mergeLoop] at h
    cases hst : stepRecord s r with
    | none => rw [hst] at h; cases h
    | some s2 =>
      rw [hst] at h
      exact ih h (stepRecord_keys_mono hst ha)

theorem mergeLoop_key_of_record {rs : List SeriesRec} {s s1 : MergeState}
    {r : SeriesRec} {wk : String}
    (h : mergeLoop rs s = some s1) (hr : r ∈ rs) (hkey : keyOf? r = some wk)
    (hp : r.players ≠ []) : wk ∈ dkeys s1.weekly_players := by
  induction rs generalizing s with
  | nil => simp at hr
  | cons r0 rest ih =>
    simp only [mergeLoop] at h
    cases hst : stepRecord s r0 with
    | none => rw [hst] at h; cases h
    | some s2 =>
      rw [hst] at h
      rcases List.mem_cons.mp hr with heq | hmem
      · subst heq
        exact mergeLoop_keys_mono h (stepRecord_keys_self hst hkey hp)
      · exact ih h hmem

theorem stepRecord_keys_nodup {s s' : MergeState} {r : SeriesRec}
    (h : stepRecord s r = some s') (hn : (dkeys s.weekly_players).Nodup) :
    (dkeys s'.weekly_players).Nodup := by
  rcases r with ⟨date, players, teams⟩
  cases date with
  | none =>
    simp only [stepRecord, Option.some.injEq] at h
    subst h
    exact hn
  | some ds =>
    by_cases hds : ds = ""
    · simp only [stepRecord, if_pos hds, Option.some.injEq] at h
      subst h
      exact hn
    · simp only [stepRecord, if_neg hds] at h
      cases hiso : _iso_week_key ds with
      | none => rw [hiso] at h; cases h
      | some wk =>
        rw [hiso] at h
        simp only [Option.some.injEq] at h
        subst h
        exact accumEntity_fold_keys_nodup players (s.weekly_players, s.season_players) wk hn

theorem mergeLoop_keys_nodup {rs : List SeriesRec} {s s1 : MergeState}
    (h : mergeLoop rs s = some s1) (hn : (dkeys s.weekly_players).Nodup) :
    (dkeys s1.weekly_players).Nodup := by
  induction rs generalizing s with
  | nil =>
    simp only [mergeLoop, Option.some.injEq] at h
    subst h
    exact hn
  | cons r rest ih =>
    simp only [mergeLoop] at h
    cases hst : stepRecord s r with
    | none => rw [hst] at h; cases h
    | some s2 =>
      rw [hst] at h
      exact ih h (stepRecord_keys_nodup hst hn)

theorem stepRecord_dated_parses {s s' : MergeState} {r : SeriesRec}
    (h : stepRecord s r = some s') (hd : datedB r = true) : (keyOf? r).isSome := by
  rcases r with ⟨date, players, teams⟩
  cases date with
  | none => simp [datedB] at hd
  | some ds =>
    by_cases hds : ds = ""
    · simp [datedB, hds] at hd
    · simp only [stepRecord, if_neg hds] at h
      cases hiso : _iso_week_key ds with
      | none => rw [hiso] at h; cases h
      | some wk => simp [keyOf?, hds, hiso]

theorem mergeLoop_dated_parses {rs : List SeriesRec} {s s1 : MergeState} {r : SeriesRec}
    (h : mergeLoop rs s = some s1) (hr : r ∈ rs) (hd : datedB r = true) :
    (keyOf? r).isSome := by
  induction rs generalizing s with
  | nil => simp at hr
  | cons r0 rest ih =>
    simp only [mergeLoop] at h
    cases hst : stepRecord s r0 with
    | none => rw [hst] at h; cases h
    | some s2 =>
      rw [hst] at h
      rcases List.mem_cons.mp hr with heq | hmem
      · subst heq
        exact stepRecord_dated_parses hst hd
      · exact ih h hmem

theorem stepRecord_wt_preserve {s s' : MergeState} {r : SeriesRec} {wk tn : String}
    (h : stepRecord s r = some s')
    (hx : ∃ i, dlookup s.weekly_teams wk = some i ∧ dcontains i tn = true) :
    ∃ i, dlookup s'.weekly_teams wk = some i ∧ dcontains i tn = true := by
  rcases r with ⟨date, players, teams⟩
  cases date with
  | none =>
    simp only [stepRecord, Option.some.injEq] at h
    subst h
    exact hx
  | some ds =>
    by_cases hds : ds = ""
    · simp only [stepRecord, if_pos hds, Option.some.injEq] at h
      subst h
      exact hx
    · simp only [stepRecord, if_neg hds] at h
      cases hiso : _iso_week_key ds with
      | none => rw [hiso] at h; cases h
      | some wk2 =>
        rw [hiso] at h
        simp only [Option.some.injEq] at h
        subst h
        exact accumEntity_fold_inner_preserve teams (s.weekly_teams, s.season_teams) wk2 hx

theorem stepRecord_wt_self {s s' : MergeState} {r : SeriesRec} {wk tn : String}
    {st : StatMap}
    (h : stepRecord s r = some s') (hkey : keyOf? r = some wk)
    (hmem : (tn, st) ∈ r.teams) :
    ∃ i, dlookup s'.weekly_teams wk = some i ∧ dcontains i tn = true := by
  rcases r with ⟨date, players, teams⟩
  cases date with
  | none => simp [keyOf?] at hkey
  | some ds =>
    by_cases hds : ds = ""
    · simp [keyOf?, hds] at hkey
    · simp only [keyOf?, if_neg hds] at hkey
      simp only [stepRecord, if_neg hds, hkey, Option.some.injEq] at h
      subst h
      exact accumEntity_fold_inner_self (by simpa using hmem) (s.weekly_teams, s.season_teams)

theorem mergeLoop_wt_preserve {rs : List SeriesRec} {s s1 : MergeState} {wk tn : String}
    (h : mergeLoop rs s = some s1)
    (hx : ∃ i, dlookup s.weekly_teams wk = some i ∧ dcontains i tn = true) :
    ∃ i, dlookup s1.weekly_teams wk = some i ∧ dcontains i tn = true := by
  induction rs generalizing s with
  | nil =>
    simp only [mergeLoop, Option.some.injEq] at h
    subst h
    exact hx
  | cons r rest ih =>
    simp only [mergeLoop] at h
    cases hst : stepRecord s r with
    | none => rw [hst] at h; cases h
    | some s2 =>
      rw [hst] at h
      exact ih h (stepRecord_wt_preserve hst hx)

theorem mergeLoop_wt_of_record {rs : List SeriesRec} {s s1 : MergeState}
    {r : SeriesRec} {wk tn : String} {st : StatMap}
    (h : mergeLoop rs s = some s1) (hr : r ∈ rs) (hkey : keyOf? r = some wk)
    (hmem : (tn, st) ∈ r.teams) :
    ∃ i, dlookup s1.weekly_teams wk = some i ∧ dcontains i tn = true := by
  induction rs generalizing s with
  | nil => simp at hr
  | cons r0 rest ih =>
    simp only [mergeLoop] at h
    cases hst : stepRecord s r0 with
    | none => rw [hst] at h; cases h
    | some s2 =>
      rw [hst] at h
      rcases List.mem_cons.mp hr with heq | hmem'
      · subst heq
        exact mergeLoop_wt_preserve h (stepRecord_wt_self hst hkey hmem)
      · exact ih h hmem'

/-! ## Sorting and summation helpers -/

theorem insertStr_perm (x : String) (l : List String) :
    (insertStr x l).Perm (x :: l) := by
  induction l with
  | nil => simp [insertStr]
  | cons y ys ih =>
    by_cases h : x ≤ y
    · simp [insertStr, h]
    · simp only [insertStr, if_neg h]
      exact (List.Perm.cons y ih).trans (List.Perm.swap x y ys)

theorem sortStrs_perm (l : List String) : (sortStrs l).Perm l := by
  induction l with
  | nil => simp [sortStrs]
  | cons x xs ih =>
    show (insertStr x (sortStrs xs)).Perm (x :: xs)
    exact (insertStr_perm x (sortStrs xs)).trans (List.Perm.cons x ih)

theorem sortStrs_nodup {l : List String} (h : l.Nodup) : (sortStrs l).Nodup :=
  ((sortStrs_perm l).nodup_iff).mpr h

theorem mem_sortStrs {l : List String} {a : String} : a ∈ sortStrs l ↔ a ∈ l :=
  (sortStrs_perm l).mem_iff

theorem list_sum_map_add {β : Type} (L : List β) (f g : β → Int) :
    (L.map fun b => f b + g b).sum = (L.map f).sum + (L.map g).sum := by
  induction L with
  | nil => simp
  | cons b bs ih =>
    simp only [List.map_cons, List.sum_cons, ih]
    omega

theorem sum_map_swap {β : Type} (K : List String) (L : List β) (g : String → β → Int) :
    (K.map fun a => (L.map (g a)).sum).sum
      = (L.map fun b => (K.map fun a => g a b).sum).sum := by
  induction K with
  | nil => simp
  | cons a as ih =>
    simp only [List.map_cons, List.sum_cons, ih, ← list_sum_map_add]

theorem sum_ite_unique (K : List String) (hK : K.Nodup) (w : String) (c : Int) :
    (K.map fun wk => if w = wk then c else 0).sum = if w ∈ K then c else 0 := by
  induction K with
  | nil => simp
  | cons a as ih =>
    obtain ⟨ha, has⟩ := List.nodup_cons.mp hK
    by_cases hw : w = a
    · subst hw
      have : (as.map fun wk => if w = wk then c else 0) = as.map fun _ => 0 := by
        apply List.map_congr_left
        intro b hb
        have : w ≠ b := fun hh => ha (hh ▸ hb)
        simp [this]
      simp [this]
    · have hw' : ¬(w = a) := hw
      simp only [List.map_cons, List.sum_cons, if_neg hw', ih has, List.mem_cons]
      simp [hw']

theorem dlookup_map_mk {β : Type} (l : List String) (f : String → β) {wk : String}
    (h : wk ∈ l) : dlookup (l.map fun a => (a, f a)) wk = some (f wk) := by
  induction l with
  | nil => simp at h
  | cons a as ih =>
    by_cases ha : a = wk
    · subst ha
      simp [dlookup]
    · rcases List.mem_cons.mp h with h' | h'
      · exact absurd h'.symm ha
      · simpa [dlookup, ha] using ih h'

/-! ## ISO week agreement over the checked range -/

set_option maxHeartbeats 4000000 in
theorem isoAgreeBool_true : isoAgreeBool = true := by decide

theorem iso_agree_range :
    ∀ y m d, 2015 ≤ y → y ≤ 2030 → 1 ≤ m → m ≤ 12 → 1 ≤ d → d ≤ daysInMonth y m →
      isocalendarYW y m d = (specIsoYear y m d, specIsoWeek y m d) := by
  intro y m d h1 h2 h3 h4 h5 h6
  have hb := isoAgreeBool_true
  unfold isoAgreeBool at hb
  rw [List.all_eq_true] at hb
  have hy : 2015 + (y - 2015) = y := by omega
  have hdy := hb (y - 2015) (by rw [List.mem_range]; omega)
  rw [List.all_eq_true] at hdy
  have hdm := hdy (m - 1) (by rw [List.mem_range]; omega)
  rw [List.all_eq_true] at hdm
  have hm : m - 1 + 1 = m := by omega
  rw [hy, hm] at hdm
  have hdd := hdm (d - 1) (by rw [List.mem_range]; omega)
  have hd : d - 1 + 1 = d := by omega
  rw [hd] at hdd
  exact eq_of_beq hdd

/-! ## Small facts about dating and the empty merge state -/

theorem sval_nil (n k : String) : sval [] n k = 0 := rfl

theorem keyOf_none_of_undated {r : SeriesRec} (h : datedB r = false) :
    keyOf? r = none := by
  rcases r with ⟨date, players, teams⟩
  cases date with
  | none => rfl
  | some ds =>
    have hds : ds = "" := by simpa [datedB] using h
    simp [keyOf?, hds]

theorem dated_of_keyOf_some {r : SeriesRec} {w : String} (h : keyOf? r = some w) :
    datedB r = true := by
  rcases r with ⟨date, players, teams⟩
  cases date with
  | none => simp [keyOf?] at h
  | some ds =>
    by_cases hds : ds = ""
    · simp [keyOf?, hds] at h
    · simp [datedB, hds]

theorem stepRecord_undated {s : MergeState} {r : SeriesRec} (h : datedB r = false) :
    stepRecord s r = some s := by
  rcases r with ⟨date, players, teams⟩
  cases date with
  | none => rfl
  | some ds =>
    have hds : ds = "" := by simpa [datedB] using h
    simp [stepRecord, hds]

theorem mergeLoop_filter_dated (l : List SeriesRec) (s : MergeState) :
    mergeLoop (l.filter datedB) s = mergeLoop l s := by
  induction l generalizing s with
  | nil => rfl
  | cons r rest ih =>
    by_cases hd : datedB r
    · rw [List.filter_cons_of_pos hd]
      show (match stepRecord s r with
            | none => none
            | some s' => mergeLoop (rest.filter datedB) s') = _
      cases hst : stepRecord s r with
      | none => simp [mergeLoop, hst]
      | some s2 => simp [mergeLoop, hst, ih]
    · rw [List.filter_cons_of_neg (by simpa using hd)]
      rw [ih]
      show _ = mergeLoop (r :: rest) s
      simp [mergeLoop, stepRecord_undated (by simpa using hd)]

/-- The season totals and weekly totals over one grouping key list: the
grouped double sum collapses to the flat sum when every contribution
whose key escapes the key list vanishes. -/
theorem grouped_sum_eq (K : List String) (hK : K.Nodup) {β : Type} (L : List β)
    (key : β → Option String) (c : β → Int)
    (hzero : ∀ b ∈ L, ∀ w, key b = some w → w ∉ K → c b = 0) :
    (K.map fun wk => (L.map fun b => if key b = some wk then c b else 0).sum).sum
      = (L.map fun b => if (key b).isSome then c b else 0).sum := by
  rw [sum_map_swap]
  apply congrArg
  apply List.map_congr_left
  intro b hb
  cases hkb : key b with
  | none => simp [hkb]
  | some w =>
    simp only [hkb, Option.isSome_some, if_true]
    have hmaps : (K.map fun wk => if some w = some wk then c b else 0)
        = K.map fun wk => if w = wk then c b else 0 := by
      apply List.map_congr_left
      intro wk _
      simp
    rw [hmaps, sum_ite_unique K hK w (c b)]
    by_cases hw : w ∈ K
    · simp [hw]
    · simp [hw, hzero b hb w hkb hw]

/-! ## Claim theorems: C4, C5, C8 -/

/-- C4: the week key of a record's date `YYYY-MM-DD` is the ISO week-year
and 2-digit ISO week number formatted `YYYY-Www` (checked against the
ISO 8601 Thursday rule over every valid date of 2015-2030); in particular
2024-12-30 buckets under `2025-W01`, not `2024-W53`. -/
theorem C4_iso_week_key_follows_iso_rules :
    _iso_week_key "2024-12-30" = some "2025-W01"
    ∧ _iso_week_key "2024-12-30" ≠ some "2024-W53"
    ∧ (∀ y m d, 2015 ≤ y → y ≤ 2030 → 1 ≤ m → m ≤ 12 → 1 ≤ d →
        d ≤ daysInMonth y m →
        isocalendarYW y m d = (specIsoYear y m d, specIsoWeek y m d))
    ∧ (∀ s y m d, parseIsoDate s = some (y, m, d) →
        _iso_week_key s
          = some (toString (isocalendarYW y m d).1 ++ "-W"
              ++ pad2 (isocalendarYW y m d).2)) := by
  refine ⟨by decide, by decide, iso_agree_range, ?_⟩
  intro s y m d h
  simp [_iso_week_key, h]

/-- Witness for C4 at the concrete date 2024-12-30. -/
theorem C4_witness :
    isocalendarYW 2024 12 30 = (specIsoYear 2024 12 30, specIsoWeek 2024 12 30)
    ∧ _iso_week_key "2024-12-30"
        = some (toString (isocalendarYW 2024 12 30).1 ++ "-W"
            ++ pad2 (isocalendarYW 2024 12 30).2) :=
  ⟨C4_iso_week_key_follows_iso_rules.2.2.1 2024 12 30 (by decide) (by decide)
      (by decide) (by decide) (by decide) (by decide),
   C4_iso_week_key_follows_iso_rules.2.2.2 "2024-12-30" 2024 12 30 (by decide)⟩

/-- C5: accumulating a source map over the schema keys treats schema keys
absent from the source as 0 (the key is present in the result), and
ignores source keys outside the schema (they appear in no total unless
already in the destination). -/
theorem C5_add_stats_schema_defaulting (dst src : StatMap) (keys : List String)
    (k : String) (hnd : keys.Nodup) :
    (k ∈ keys →
      dlookup (_add_stats dst src keys) k = some (dgetD dst k 0 + dgetD src k 0))
    ∧ (k ∈ keys → dlookup src k = none →
      dlookup (_add_stats dst src keys) k = some (dgetD dst k 0))
    ∧ (k ∉ keys → dlookup (_add_stats dst src keys) k = dlookup dst k)
    ∧ (k ∉ keys → dlookup dst k = none →
      dlookup (_add_stats dst src keys) k = none) := by
  refine ⟨fun hk => add_stats_lookup_mem hnd hk, fun hk hsrc => ?_,
    fun hk => add_stats_lookup_not_mem hk, fun hk hdst => ?_⟩
  · rw [add_stats_lookup_mem hnd hk]
    simp [dgetD, hsrc]
  · rw [add_stats_lookup_not_mem hk, hdst]

/-- Witness for C5: a source omitting `rim_hits` still yields the key with
value 0, and a non-schema source key `bogus` does not appear. -/
theorem C5_witness :
    dlookup (_add_stats (defaultSchema PLAYER_STAT_KEYS)
        [("bogus", (7 : Int)), ("sinks", 2)] PLAYER_STAT_KEYS) "rim_hits" = some 0
    ∧ dlookup (_add_stats (defaultSchema PLAYER_STAT_KEYS)
        [("bogus", (7 : Int)), ("sinks", 2)] PLAYER_STAT_KEYS) "bogus" = none := by
  have h1 := (C5_add_stats_schema_defaulting (defaultSchema PLAYER_STAT_KEYS)
      [("bogus", (7 : Int)), ("sinks", 2)] PLAYER_STAT_KEYS "rim_hits" (by decide)).2.1
      (by decide) (by decide)
  have h2 := (C5_add_stats_schema_defaulting (defaultSchema PLAYER_STAT_KEYS)
      [("bogus", (7 : Int)), ("sinks", 2)] PLAYER_STAT_KEYS "bogus" (by decide)).2.2.2
      (by decide) (by decide)
  refine ⟨?_, h2⟩
  rw [h1]
  decide

/-- C8: records whose series_summary.json read fails to parse, and records
missing (or with an empty) date, are skipped: merge_all over the scanned
set equals merge_all over the remaining well-formed, dated records. -/
theorem C8_bad_records_skipped (reads : List (Option SeriesRec)) :
    merge_all (_scan_series_summaries reads)
      = merge_all ((_scan_series_summaries reads).filter datedB) := by
  unfold merge_all
  rw [mergeLoop_filter_dated]

/-! ## Claim theorems: C2 (season vs weekly sums) -/

/-- C2 (amended): for players the season total always equals the sum of
that player's totals over the weeks of the weekly output; for teams the
same holds provided every dated record has a nonempty players map (the
weekly output is keyed off weekly player data, so a week whose records
all lack player entries is absent from it). -/
theorem C2_season_equals_weekly_sum (records : List SeriesRec)
    (wkly : List (String × WeekBucket)) (season : SeasonTotals)
    (h : merge_all records = some (wkly, season)) (n k : String) :
    (k ∈ PLAYER_STAT_KEYS →
      sval season.players n k = (wkly.map fun e => sval e.2.players n k).sum)
    ∧ ((∀ r ∈ records, datedB r = true → r.players ≠ []) → k ∈ TEAM_STAT_KEYS →
      sval season.teams n k = (wkly.map fun e => sval e.2.teams n k).sum) := by
  unfold merge_all at h
  rw [Option.map_eq_some'] at h
  obtain ⟨s1, hloop, hfin⟩ := h
  unfold finalizeMerge at hfin
  injection hfin with hw hs
  subst hw
  subst hs
  have hKnd : (dkeys s1.weekly_players).Nodup :=
    mergeLoop_keys_nodup hloop (by simp [dkeys])
  have hiff : ∀ (c : SeriesRec → Int),
      (records.map fun r => if (keyOf? r).isSome then c r else 0).sum
        = (records.map fun r => if datedB r then c r else 0).sum := by
    intro c
    apply congrArg
    apply List.map_congr_left
    intro r hr
    cases hd : datedB r
    · rw [keyOf_none_of_undated hd]
      rfl
    · have hsome := mergeLoop_dated_parses hloop hr hd
      simp [hsome]
  constructor
  · intro hk
    have hkT0 : "total_points" ∈ TEAM_STAT_KEYS := by decide
    have hseason := (mergeLoop_vals hloop hk hkT0 n n "").1
    rw [show sval (MergeState.mk [] [] [] []).season_players n k = 0 from rfl,
      zero_add] at hseason
    have hwk : ∀ wk, wval s1.weekly_players wk n k
        = (records.map fun r =>
            if keyOf? r = some wk then contrib r.players n k else 0).sum := by
      intro wk
      have hv := (mergeLoop_vals hloop hk hkT0 n n wk).2.1
      rw [show wval (MergeState.mk [] [] [] []).weekly_players wk n k = 0 from rfl,
        zero_add] at hv
      exact hv
    have hzero : ∀ r ∈ records, ∀ w, keyOf? r = some w →
        w ∉ dkeys s1.weekly_players → contrib r.players n k = 0 := by
      intro r hr w hkey hwK
      by_cases hp : r.players = []
      · simp [hp, contrib]
      · exact absurd (mergeLoop_key_of_record hloop hr hkey hp) hwK
    show sval s1.season_players n k = _
    rw [List.map_map]
    rw [show ((fun e : String × WeekBucket => sval e.2.players n k) ∘
        fun wk => ((wk, ⟨dgetD s1.weekly_players wk [], dgetD s1.weekly_teams wk []⟩)
          : String × WeekBucket)) = fun wk => wval s1.weekly_players wk n k from rfl]
    rw [((sortStrs_perm (dkeys s1.weekly_players)).map
        (fun wk => wval s1.weekly_players wk n k)).sum_eq]
    rw [List.map_congr_left (fun wk _ => hwk wk)]
    rw [grouped_sum_eq _ hKnd records keyOf? (fun r => contrib r.players n k) hzero]
    rw [hiff]
    exact hseason
  · intro hne hk
    have hkP0 : "points" ∈ PLAYER_STAT_KEYS := by decide
    have hseason := (mergeLoop_vals hloop hkP0 hk n n "").2.2.1
    rw [show sval (MergeState.mk [] [] [] []).season_teams n k = 0 from rfl,
      zero_add] at hseason
    have hwk : ∀ wk, wval s1.weekly_teams wk n k
        = (records.map fun r =>
            if keyOf? r = some wk then contrib r.teams n k else 0).sum := by
      intro wk
      have hv := (mergeLoop_vals hloop hkP0 hk n n wk).2.2.2
      rw [show wval (MergeState.mk [] [] [] []).weekly_teams wk n k = 0 from rfl,
        zero_add] at hv
      exact hv
    have hzero : ∀ r ∈ records, ∀ w, keyOf? r = some w →
        w ∉ dkeys s1.weekly_players → contrib r.teams n k = 0 := by
      intro r hr w hkey hwK
      have hd := dated_of_keyOf_some hkey
      have hp := hne r hr hd
      exact absurd (mergeLoop_key_of_record hloop hr hkey hp) hwK
    show sval s1.season_teams n k = _
    rw [List.map_map]
    rw [show ((fun e : String × WeekBucket => sval e.2.teams n k) ∘
        fun wk => ((wk, ⟨dgetD s1.weekly_players wk [], dgetD s1.weekly_teams wk []⟩)
          : String × WeekBucket)) = fun wk => wval s1.weekly_teams wk n k from rfl]
    rw [((sortStrs_perm (dkeys s1.weekly_players)).map
        (fun wk => wval s1.weekly_teams wk n k)).sum_eq]
    rw [List.map_congr_left (fun wk _ => hwk wk)]
    rw [grouped_sum_eq _ hKnd records keyOf? (fun r => contrib r.teams n k) hzero]
    rw [hiff]
    exact hseason

/-- Counterexample to C2 as stated: for the record set `[cexRecord6]`
(one dated series with team data but an empty players map), the season
total of team T at total_points is 5 while the weekly output is empty,
so the weekly sum is 0. -/
theorem C2_counterexample :
    ¬ (∀ wkly season, merge_all [cexRecord6] = some (wkly, season) →
        ∀ n k, k ∈ TEAM_STAT_KEYS →
          sval season.teams n k = (wkly.map fun e => sval e.2.teams n k).sum) := by
  intro hclaim
  cases hmm : merge_all [cexRecord6] with
  | none => exact absurd hmm (by decide)
  | some pr =>
    have hvals : (merge_all [cexRecord6]).map
        (fun out => (sval out.2.teams "T" "total_points",
          (out.1.map fun e => sval e.2.teams "T" "total_points").sum))
        = some (5, 0) := by decide
    rw [hmm] at hvals
    have hv2 : (sval pr.2.teams "T" "total_points",
        (pr.1.map fun e => sval e.2.teams "T" "total_points").sum)
          = ((5 : Int), (0 : Int)) := Option.some.inj hvals
    injection hv2 with h1 h2
    have hcl := hclaim pr.1 pr.2 (by rw [hmm]) "T" "total_points" (by decide)
    rw [hcl] at h1
    rw [h2] at h1
    exact absurd h1 (by decide)

/-- Witness for C2 at the single-record input `witRecord2`. -/
theorem C2_witness :
    sval (SeasonTotals.mk [("Ana", witAnaMap)] []).players "Ana" "points"
      = ([("2025-W23", WeekBucket.mk [("Ana", witAnaMap)] [])].map
          fun e => sval e.2.players "Ana" "points").sum :=
  (C2_season_equals_weekly_sum [witRecord2]
      [("2025-W23", WeekBucket.mk [("Ana", witAnaMap)] [])]
      (SeasonTotals.mk [("Ana", witAnaMap)] [])
      (by decide) "Ana" "points").1 (by decide)

/-! ## Claim theorems: C6 (weekly output covers team data) -/

/-- C6 (amended): for every dated record whose players map is nonempty,
the weekly output has an entry under the record's ISO week key, and that
entry's teams map contains each of the record's teams with the stats
accumulated over all records of that week.  (A record whose players map
is empty does not force its week into the output.) -/
theorem C6_weekly_contains_teams (records : List SeriesRec)
    (wkly : List (String × WeekBucket)) (season : SeasonTotals)
    (h : merge_all records = some (wkly, season)) {r : SeriesRec} (hr : r ∈ records)
    (hp : r.players ≠ []) {wk : String} (hkey : keyOf? r = some wk)
    {tname : String} {st : StatMap} (hmem : (tname, st) ∈ r.teams) :
    ∃ bucket, dlookup wkly wk = some bucket
      ∧ (∃ sm, dlookup bucket.teams tname = some sm)
      ∧ ∀ k ∈ TEAM_STAT_KEYS,
          sval bucket.teams tname k
            = (records.map fun r2 =>
                if keyOf? r2 = some wk then contrib r2.teams tname k else 0).sum := by
  unfold merge_all at h
  rw [Option.map_eq_some'] at h
  obtain ⟨s1, hloop, hfin⟩ := h
  unfold finalizeMerge at hfin
  injection hfin with hw hs
  subst hw
  have hwkK : wk ∈ dkeys s1.weekly_players := mergeLoop_key_of_record hloop hr hkey hp
  refine ⟨⟨dgetD s1.weekly_players wk [], dgetD s1.weekly_teams wk []⟩, ?_, ?_, ?_⟩
  · exact dlookup_map_mk _ _ (mem_sortStrs.mpr hwkK)
  · obtain ⟨i, hi, hc⟩ := mergeLoop_wt_of_record hloop hr hkey hmem
    show ∃ sm, dlookup (dgetD s1.weekly_teams wk []) tname = some sm
    rw [show dgetD s1.weekly_teams wk [] = i by simp [dgetD, hi]]
    exact Option.isSome_iff_exists.mp hc
  · intro k hk
    have hkP0 : "points" ∈ PLAYER_STAT_KEYS := by decide
    have hv := (mergeLoop_vals hloop hkP0 hk tname tname wk).2.2.2
    rw [show wval (MergeState.mk [] [] [] []).weekly_teams wk tname k = 0 from rfl,
      zero_add] at hv
    exact hv

/-- Counterexample to C6 as stated: for the record set `[cexRecord6]`
(dated, empty players map, team T present), the weekly output has no
entry under the record's week key 2025-W23. -/
theorem C6_counterexample :
    ¬ (∀ wkly season, merge_all [cexRecord6] = some (wkly, season) →
        ∀ r ∈ [cexRecord6], ∀ wk, keyOf? r = some wk →
          ∃ bucket, dlookup wkly wk = some bucket
            ∧ ∀ tn st, (tn, st) ∈ r.teams →
                ∃ sm, dlookup bucket.teams tn = some sm) := by
  intro hclaim
  cases hmm : merge_all [cexRecord6] with
  | none => exact absurd hmm (by decide)
  | some pr =>
    have hfst : (merge_all [cexRecord6]).map Prod.fst = some [] := by decide
    rw [hmm] at hfst
    have h1 : pr.1 = [] := Option.some.inj hfst
    obtain ⟨bucket, hb, _⟩ := hclaim pr.1 pr.2 (by rw [hmm])
      cexRecord6 (List.mem_singleton.mpr rfl) "2025-W23" (by decide)
    rw [h1] at hb
    cases hb

/-- Witness for C6 at the single-record input `witRecord6`. -/
theorem C6_witness :
    ∃ bucket,
      dlookup (((merge_all [witRecord6]).map Prod.fst).getD []) "2025-W23"
          = some bucket
        ∧ (∃ sm, dlookup bucket.teams "T" = some sm)
        ∧ ∀ k ∈ TEAM_STAT_KEYS,
            sval bucket.teams "T" k
              = ([witRecord6].map fun r2 =>
                  if keyOf? r2 = some "2025-W23" then contrib r2.teams "T" k else 0).sum := by
  cases hmm : merge_all [witRecord6] with
  | none => exact absurd hmm (by decide)
  | some pr =>
    have hget : ((some pr).map Prod.fst).getD ([] : List (String × WeekBucket)) = pr.1 := rfl
    rw [hget]
    exact C6_weekly_contains_teams [witRecord6] pr.1 pr.2
      (by rw [hmm]) (List.mem_singleton.mpr rfl) (by decide) (by decide)
      (List.mem_singleton.mpr rfl)

/-! ## Lemmas about the registry reconciliation folds -/

theorem playerTotalsStep_overwrite (preg : StatDict) (pt : String × StatMap) :
    playerTotalsStep true preg pt
      = dinsert preg pt.1 (buildOverwrite _default_player_stats pt.2) := by
  unfold playerTotalsStep
  by_cases hc : dcontains preg pt.1
  · simp [hc]
  · simp [hc, dinsert_dinsert]

theorem playerTotalsStep_lookup_ne {preg : StatDict} {pt : String × StatMap}
    {p : String} (ow : Bool) (h : p ≠ pt.1) :
    dlookup (playerTotalsStep ow preg pt) p = dlookup preg p := by
  unfold playerTotalsStep
  by_cases hc : dcontains preg pt.1
  · simp only [hc, if_true]
    cases ow
    · simp [dlookup_dmodify_ne _ _ h]
    · simp [dlookup_dinsert_ne _ _ h]
  · simp only [hc, if_false]
    cases ow
    · simp [dlookup_dmodify_ne _ _ h, dlookup_dinsert_ne _ _ h]
    · simp [dlookup_dinsert_ne _ _ h]

theorem player_fold_lookup_not_mem {ptot : StatDict} {preg : StatDict} {p : String}
    (ow : Bool) (h : p ∉ ptot.map Prod.fst) :
    dlookup (ptot.foldl (playerTotalsStep ow) preg) p = dlookup preg p := by
  induction ptot generalizing preg with
  | nil => rfl
  | cons pt rest ih =>
    have hp : p ≠ pt.1 := fun hh => h (by simp [hh])
    have hrest : p ∉ rest.map Prod.fst := fun hh => h (by simp [hh])
    rw [List.foldl_cons, ih hrest, playerTotalsStep_lookup_ne ow hp]

theorem player_fold_lookup {ptot : StatDict} {preg : StatDict} {p : String} {t : StatMap}
    (hnd : (ptot.map Prod.fst).Nodup) (hmem : (p, t) ∈ ptot) :
    dlookup (ptot.foldl (playerTotalsStep true) preg) p
      = some (buildOverwrite _default_player_stats t) := by
  induction ptot generalizing preg with
  | nil => simp at hmem
  | cons pt rest ih =>
    rw [List.map_cons, List.nodup_cons] at hnd
    obtain ⟨hhd, hnd'⟩ := hnd
    rw [List.foldl_cons]
    rcases List.mem_cons.mp hmem with heq | hmem'
    · have hpt : pt = (p, t) := heq.symm
      subst hpt
      rw [player_fold_lookup_not_mem true hhd, playerTotalsStep_overwrite,
        dlookup_dinsert_self]
    · exact ih hnd' hmem'

theorem player_fold_fixed {ptot : StatDict} {preg : StatDict}
    (h : ∀ pt ∈ ptot, dlookup preg pt.1
        = some (buildOverwrite _default_player_stats pt.2)) :
    ptot.foldl (playerTotalsStep true) preg = preg := by
  induction ptot with
  | nil => rfl
  | cons pt rest ih =>
    rw [List.foldl_cons, playerTotalsStep_overwrite,
      dinsert_eq_self (h pt (List.mem_cons_self _ _))]
    exact ih fun q hq => h q (List.mem_cons_of_mem _ hq)

theorem teamTotalsStep_lookup_self (treg : TeamDict) (tt : String × StatMap) :
    ∃ e, dlookup (teamTotalsStep true treg tt) tt.1 = some e
      ∧ e.lifetime_stats = buildOverwrite _default_team_stats tt.2 := by
  simp only [teamTotalsStep]
  by_cases hc : dcontains treg tt.1
  · rw [if_pos hc, if_pos trivial]
    obtain ⟨e0, he0⟩ := Option.isSome_iff_exists.mp (by simpa [dcontains] using hc)
    refine ⟨⟨buildOverwrite _default_team_stats tt.2, e0.players⟩, ?_, rfl⟩
    rw [dlookup_dmodify_self, he0]
    rfl
  · rw [if_neg hc, if_pos trivial]
    refine ⟨⟨buildOverwrite _default_team_stats tt.2,
      match dlookup treg tt.1 with
      | some e => e.players
      | none => []⟩, ?_, rfl⟩
    rw [dlookup_dmodify_self, dlookup_dinsert_self]
    rfl

theorem teamTotalsStep_lookup_ne {treg : TeamDict} {tt : String × StatMap}
    {t : String} (ow : Bool) (h : t ≠ tt.1) :
    dlookup (teamTotalsStep ow treg tt) t = dlookup treg t := by
  unfold teamTotalsStep
  by_cases hc : dcontains treg tt.1
  · simp only [hc, if_true]
    cases ow
    · simp [dlookup_dmodify_ne _ _ h]
    · simp [dlookup_dmodify_ne _ _ h]
  · simp only [hc, if_false]
    cases ow
    · simp [dlookup_dmodify_ne _ _ h, dlookup_dinsert_ne _ _ h]
    · simp [dlookup_dmodify_ne _ _ h, dlookup_dinsert_ne _ _ h]

theorem team_fold_lookup_not_mem {ttot : StatDict} {treg : TeamDict} {t : String}
    (ow : Bool) (h : t ∉ ttot.map Prod.fst) :
    dlookup (ttot.foldl (teamTotalsStep ow) treg) t = dlookup treg t := by
  induction ttot generalizing treg with
  | nil => rfl
  | cons tt rest ih =>
    have hp : t ≠ tt.1 := fun hh => h (by simp [hh])
    have hrest : t ∉ rest.map Prod.fst := fun hh => h (by simp [hh])
    rw [List.foldl_cons, ih hrest, teamTotalsStep_lookup_ne ow hp]

theorem team_fold_lookup {ttot : StatDict} {treg : TeamDict} {t : String} {tot : StatMap}
    (hnd : (ttot.map Prod.fst).Nodup) (hmem : (t, tot) ∈ ttot) :
    ∃ e, dlookup (ttot.foldl (teamTotalsStep true) treg) t = some e
      ∧ e.lifetime_stats = buildOverwrite _default_team_stats tot := by
  induction ttot generalizing treg with
  | nil => simp at hmem
  | cons tt rest ih =>
    rw [List.map_cons, List.nodup_cons] at hnd
    obtain ⟨hhd, hnd'⟩ := hnd
    rw [List.foldl_cons]
    rcases List.mem_cons.mp hmem with heq | hmem'
    · have htt : tt = (t, tot) := heq.symm
      subst htt
      obtain ⟨e, he, hls⟩ := teamTotalsStep_lookup_self treg (t, tot)
      exact ⟨e, by rw [team_fold_lookup_not_mem true hhd]; exact he, hls⟩
    · exact ih hnd' hmem'

theorem teamEntry_eta (e : TeamEntry) (x : StatMap) (h : e.lifetime_stats = x) :
    TeamEntry.mk x e.players = e := by
  obtain ⟨ls, ps⟩ := e
  simp at h
  rw [h]

theorem team_fold_fixed {ttot : StatDict} {treg : TeamDict}
    (h : ∀ tt ∈ ttot, ∃ e, dlookup treg tt.1 = some e
        ∧ e.lifetime_stats = buildOverwrite _default_team_stats tt.2) :
    ttot.foldl (teamTotalsStep true) treg = treg := by
  induction ttot with
  | nil => rfl
  | cons tt rest ih =>
    obtain ⟨e, he, hls⟩ := h tt (List.mem_cons_self _ _)
    have hstep : teamTotalsStep true treg tt = treg := by
      unfold teamTotalsStep
      have hc : dcontains treg tt.1 = true := by simp [dcontains, he]
      simp only [hc, if_true]
      apply dmodify_eq_self
      intro v hv
      rw [he] at hv
      have hve : e = v := by injection hv
      subst hve
      exact teamEntry_eta e _ hls
    rw [List.foldl_cons, hstep]
    exact ih fun q hq => h q (List.mem_cons_of_mem _ hq)

/-! ## Claim theorems: C1 (overwrite reconciliation is a fixed point) -/

/-- C1: running update_registry_from_totals with overwrite=true twice with
the same totals leaves the registry state after the second call identical
to the state after the first call. -/
theorem C1_overwrite_reconcile_fixed_point (reg : Registry) (ptot ttot : StatDict)
    (hp : (ptot.map Prod.fst).Nodup) (ht : (ttot.map Prod.fst).Nodup) :
    (update_registry_from_totals
        (update_registry_from_totals reg ptot ttot true).1 ptot ttot true).1
      = (update_registry_from_totals reg ptot ttot true).1 := by
  show (⟨ptot.foldl (playerTotalsStep true) (ptot.foldl (playerTotalsStep true) reg.players),
         ttot.foldl (teamTotalsStep true) (ttot.foldl (teamTotalsStep true) reg.teams)⟩
        : Registry)
      = ⟨ptot.foldl (playerTotalsStep true) reg.players,
         ttot.foldl (teamTotalsStep true) reg.teams⟩
  have hply : ptot.foldl (playerTotalsStep true) (ptot.foldl (playerTotalsStep true) reg.players)
      = ptot.foldl (playerTotalsStep true) reg.players :=
    player_fold_fixed fun pt hmem => player_fold_lookup hp hmem
  have htm : ttot.foldl (teamTotalsStep true) (ttot.foldl (teamTotalsStep true) reg.teams)
      = ttot.foldl (teamTotalsStep true) reg.teams :=
    team_fold_fixed fun tt hmem => team_fold_lookup ht hmem
  rw [hply, htm]

/-- Witness for C1 at a concrete registry and totals pair. -/
theorem C1_witness :
    (update_registry_from_totals
        (update_registry_from_totals
          ⟨[("Old", [("points", 3)])], [("TT", ⟨[("total_points", 2)], ["A", "B"]⟩)]⟩
          [("Ana", [("points", 14), ("sinks", 3)])] [("T", [("total_points", 5)])] true).1
        [("Ana", [("points", 14), ("sinks", 3)])] [("T", [("total_points", 5)])] true).1
      = (update_registry_from_totals
          ⟨[("Old", [("points", 3)])], [("TT", ⟨[("total_points", 2)], ["A", "B"]⟩)]⟩
          [("Ana", [("points", 14), ("sinks", 3)])] [("T", [("total_points", 5)])] true).1 :=
  C1_overwrite_reconcile_fixed_point _ _ _ (by decide) (by decide)

/-! ## Claim theorems: C7 (rosters never touched) -/

theorem teamTotalsStep_roster (ow : Bool) (treg : TeamDict) (tt : String × StatMap)
    (t : String) :
    ((dlookup (teamTotalsStep ow treg tt) t).map TeamEntry.players
        = (dlookup treg t).map TeamEntry.players)
    ∨ (dlookup treg t = none
        ∧ (dlookup (teamTotalsStep ow treg tt) t).map TeamEntry.players = some []) := by
  by_cases hne : t = tt.1
  · subst hne
    by_cases hc : dcontains treg tt.1
    · left
      obtain ⟨e0, he0⟩ := Option.isSome_iff_exists.mp (by simpa [dcontains] using hc)
      simp only [teamTotalsStep]
      rw [if_pos hc]
      cases ow
      · rw [if_neg (by simp)]
        rw [dlookup_dmodify_self, he0]
        rfl
      · rw [if_pos rfl]
        rw [dlookup_dmodify_self, he0]
        rfl
    · right
      have hn : dlookup treg tt.1 = none := by
        cases hL : dlookup treg tt.1 with
        | none => rfl
        | some e => rw [dcontains, hL] at hc; simp at hc
      refine ⟨hn, ?_⟩
      simp only [teamTotalsStep]
      rw [if_neg hc]
      cases ow
      · rw [if_neg (by simp)]
        rw [dlookup_dmodify_self, dlookup_dinsert_self, hn]
        rfl
      · rw [if_pos rfl]
        rw [dlookup_dmodify_self, dlookup_dinsert_self, hn]
        rfl
  · left
    rw [teamTotalsStep_lookup_ne ow hne]

theorem team_fold_roster (ow : Bool) (ttot : StatDict) (treg : TeamDict) (t : String) :
    ((dlookup (ttot.foldl (teamTotalsStep ow) treg) t).map TeamEntry.players
        = (dlookup treg t).map TeamEntry.players)
    ∨ (dlookup treg t = none
        ∧ (dlookup (ttot.foldl (teamTotalsStep ow) treg) t).map TeamEntry.players
            = some []) := by
  induction ttot generalizing treg with
  | nil => left; rfl
  | cons tt rest ih =>
    rw [List.foldl_cons]
    rcases ih (teamTotalsStep ow treg tt) with h | ⟨hn, hs⟩
    · rcases teamTotalsStep_roster ow treg tt t with h2 | ⟨hn2, hs2⟩
      · left
        rw [h, h2]
      · right
        exact ⟨hn2, by rw [h, hs2]⟩
    · rcases teamTotalsStep_roster ow treg tt t with h2 | ⟨hn2, hs2⟩
      · right
        refine ⟨?_, hs⟩
        rw [hn] at h2
        cases hL : dlookup treg t with
        | none => rfl
        | some e => rw [hL] at h2; simp at h2
      · right
        exact ⟨hn2, hs⟩

/-- C7: update_registry_from_totals never changes team roster membership:
an existing team keeps its players list under either overwrite mode, and
a team created by the call gets an empty roster. -/
theorem C7_rosters_never_touched (reg : Registry) (ptot ttot : StatDict) (ow : Bool)
    (t : String) :
    (∀ e, dlookup reg.teams t = some e →
      ∃ e2, dlookup (update_registry_from_totals reg ptot ttot ow).1.teams t = some e2
        ∧ e2.players = e.players)
    ∧ (dlookup reg.teams t = none →
      ∀ e2, dlookup (update_registry_from_totals reg ptot ttot ow).1.teams t = some e2
        → e2.players = []) := by
  have hteams : (update_registry_from_totals reg ptot ttot ow).1.teams
      = ttot.foldl (teamTotalsStep ow) reg.teams := rfl
  rw [hteams]
  have hfold := team_fold_roster ow ttot reg.teams t
  constructor
  · intro e he
    rcases hfold with h | ⟨hn, _⟩
    · rw [he] at h
      obtain ⟨e2, he2, hp2⟩ := Option.map_eq_some'.mp h
      exact ⟨e2, he2, hp2⟩
    · rw [he] at hn
      cases hn
  · intro hnone e2 he2
    rcases hfold with h | ⟨_, hs⟩
    · rw [hnone, he2] at h
      simp at h
    · rw [he2] at hs
      simpa using hs

/-- Witness for C7: an existing roster survives an overwrite run and a
team created by the run has an empty roster. -/
theorem C7_witness :
    (∃ e2, dlookup (update_registry_from_totals
        ⟨[], [("TT", ⟨[("total_points", 2)], ["A", "B"]⟩)]⟩
        [] [("TT", [("total_points", 9)]), ("New", [("total_points", 1)])] true).1.teams
        "TT" = some e2 ∧ e2.players = ["A", "B"])
    ∧ (∀ e2, dlookup (update_registry_from_totals
        ⟨[], [("TT", ⟨[("total_points", 2)], ["A", "B"]⟩)]⟩
        [] [("TT", [("total_points", 9)]), ("New", [("total_points", 1)])] true).1.teams
        "New" = some e2 → e2.players = []) := by
  constructor
  · exact (C7_rosters_never_touched
      ⟨[], [("TT", ⟨[("total_points", 2)], ["A", "B"]⟩)]⟩
      [] [("TT", [("total_points", 9)]), ("New", [("total_points", 1)])] true "TT").1
      ⟨[("total_points", 2)], ["A", "B"]⟩ (by decide)
  · exact (C7_rosters_never_touched
      ⟨[], [("TT", ⟨[("total_points", 2)], ["A", "B"]⟩)]⟩
      [] [("TT", [("total_points", 9)]), ("New", [("total_points", 1)])] true "New").2
      (by decide)

/-! ## Claim theorems: C9 (cold start) -/

/-- C9: a registry read that finds neither persisted file yields the empty
players mapping and the empty teams mapping rather than failing. -/
theorem C9_cold_start_empty_registry :
    load_registry none none = (([] : StatDict), ([] : TeamDict)) := rfl

/-! ## Claim theorems: C10 (upsert_team validation) -/

theorem ensure_players_lookup (pnames : List String) (preg : StatDict) (p : String) :
    dlookup (pnames.foldl
        (fun pr pn => if dcontains pr pn then pr else dinsert pr pn _default_player_stats)
        preg) p
      = match dlookup preg p with
        | some v => some v
        | none => if p ∈ pnames then some _default_player_stats else none := by
  induction pnames generalizing preg with
  | nil =>
    cases hL : dlookup preg p <;> simp [hL]
  | cons pn rest ih =>
    rw [List.foldl_cons]
    by_cases hc : dcontains preg pn
    · rw [if_pos hc, ih]
      cases hL : dlookup preg p with
      | some v => rfl
      | none =>
        by_cases hp : p ∈ rest
        · simp [hp]
        · have hppn : ¬(p = pn) := by
            intro hh
            subst hh
            rw [dcontains, hL] at hc
            simp at hc
          simp [hp, hppn]
    · rw [if_neg hc, ih]
      by_cases hppn : p = pn
      · subst hppn
        have hL : dlookup preg p = none := by
          cases hL : dlookup preg p with
          | none => rfl
          | some e => rw [dcontains, hL] at hc; simp at hc
        rw [dlookup_dinsert_self, hL]
        simp
      · rw [dlookup_dinsert_ne _ _ hppn]
        cases hL : dlookup preg p with
        | some v => rfl
        | none =>
          by_cases hp : p ∈ rest
          · simp [hp]
          · simp [hp, hppn]

/-- C10: upsert_team errors exactly when the player list does not have two
names (the check precedes any load or save, so no registry state is
produced in that case); with exactly two names, absent players are
created with the zeroed schema, present players keep their stats, and the
team's roster becomes exactly the given list. -/
theorem C10_upsert_team_validation (reg : Registry) (team_name : String)
    (player_names : List String) :
    ((∃ msg, upsert_team reg team_name player_names = Except.error msg)
        ↔ player_names.length ≠ 2)
    ∧ (player_names.length = 2 →
        ∃ preg2 treg2, upsert_team reg team_name player_names
            = Except.ok ⟨preg2, treg2⟩
          ∧ (∀ p ∈ player_names, dlookup reg.players p = none →
              dlookup preg2 p = some _default_player_stats)
          ∧ (∀ p sm, dlookup reg.players p = some sm → dlookup preg2 p = some sm)
          ∧ (∃ e, dlookup treg2 team_name = some e ∧ e.players = player_names)) := by
  constructor
  · constructor
    · rintro ⟨msg, hmsg⟩ hlen
      rw [upsert_team, if_neg (fun hc => hc hlen)] at hmsg
      cases hmsg
    · intro hlen
      exact ⟨"Teams must have exactly 2 players for 2v2.",
        by rw [upsert_team, if_pos hlen]⟩
  · intro hlen
    refine ⟨_, _, by rw [upsert_team, if_neg (fun hc => hc hlen)], ?_, ?_, ?_⟩
    · intro p hp hnone
      rw [ensure_players_lookup, hnone]
      simp [hp]
    · intro p sm hsm
      rw [ensure_players_lookup, hsm]
    · by_cases hc : dcontains reg.teams team_name
      · rw [if_pos hc]
        obtain ⟨e0, he0⟩ := Option.isSome_iff_exists.mp (by simpa [dcontains] using hc)
        refine ⟨⟨e0.lifetime_stats, player_names⟩, ?_, rfl⟩
        rw [dlookup_dmodify_self, he0]
        rfl
      · rw [if_neg hc]
        exact ⟨⟨_default_team_stats, player_names⟩, dlookup_dinsert_self _ _ _, rfl⟩

/-- Witness for C10: a one-name list errors; a two-name list creates the
players and sets the roster. -/
theorem C10_witness :
    (∃ msg, upsert_team (⟨[], []⟩ : Registry) "TT" ["A"] = Except.error msg)
    ∧ (∃ preg2 treg2, upsert_team (⟨[], []⟩ : Registry) "TT" ["A", "B"]
        = Except.ok ⟨preg2, treg2⟩
        ∧ dlookup preg2 "A" = some _default_player_stats
        ∧ ∃ e, dlookup treg2 "TT" = some e ∧ e.players = ["A", "B"]) := by
  constructor
  · exact (C10_upsert_team_validation ⟨[], []⟩ "TT" ["A"]).1.mpr (by decide)
  · obtain ⟨preg2, treg2, hok, habs, _, hteam⟩ :=
      (C10_upsert_team_validation ⟨[], []⟩ "TT" ["A", "B"]).2 (by decide)
    exact ⟨preg2, treg2, hok, habs "A" (by decide) (by decide), hteam⟩

/-! ## Key-set invariants (for claim C3) -/

theorem mem_dmodify {α : Type} {d : List (String × α)} {k : String} {f : α → α}
    {x : String × α} (h : x ∈ dmodify d k f) :
    x ∈ d ∨ ∃ v, (k, v) ∈ d ∧ x = (k, f v) := by
  induction d with
  | nil => simp [dmodify] at h
  | cons p rest ih =>
    by_cases hp : p.1 = k
    · simp only [dmodify, if_pos hp, List.mem_cons] at h
      rcases h with h | h
      · right
        refine ⟨p.2, ?_, by rw [h, hp]⟩
        rw [← hp]
        exact List.mem_cons_self _ _
      · exact Or.inl (List.mem_cons_of_mem _ h)
    · simp only [dmodify, if_neg hp, List.mem_cons] at h
      rcases h with h | h
      · exact Or.inl (h ▸ List.mem_cons_self _ _)
      · rcases ih h with h' | ⟨v, hv, hx⟩
        · exact Or.inl (List.mem_cons_of_mem _ h')
        · exact Or.inr ⟨v, List.mem_cons_of_mem _ hv, hx⟩

theorem dkeys_fold_dinsert {KS : List String} (g : StatMap → (String × Int) → Int)
    (tot : StatMap) (d : StatMap) (hd : dkeys d = KS)
    (hsub : ∀ kv ∈ tot, kv.1 ∈ KS) :
    dkeys (tot.foldl (fun acc kv => dinsert acc kv.1 (g acc kv)) d) = KS := by
  induction tot generalizing d with
  | nil => exact hd
  | cons kv rest ih =>
    rw [List.foldl_cons]
    have hc : dcontains d kv.1 = true := by
      have : kv.1 ∈ dkeys d := hd ▸ hsub kv (List.mem_cons_self _ _)
      rw [mem_dkeys] at this
      simpa [dcontains] using this
    exact ih _ (by rw [dkeys_dinsert_of_contains _ hc, hd])
      (fun q hq => hsub q (List.mem_cons_of_mem _ hq))

theorem buildOverwrite_dkeys {KS : List String} {default tot : StatMap}
    (hd : dkeys default = KS) (hsub : ∀ kv ∈ tot, kv.1 ∈ KS) :
    dkeys (buildOverwrite default tot) = KS :=
  dkeys_fold_dinsert (fun _ kv => kv.2) tot default hd hsub

theorem addInto_dkeys {KS : List String} {cur tot : StatMap}
    (hd : dkeys cur = KS) (hsub : ∀ kv ∈ tot, kv.1 ∈ KS) :
    dkeys (addInto cur tot) = KS :=
  dkeys_fold_dinsert (fun acc kv => dgetD acc kv.1 0 + kv.2) tot cur hd hsub

theorem fold_dinsert_lookup_not_mem {k : String} (g : StatMap → (String × Int) → Int)
    (tot : StatMap) (d : StatMap) (h : k ∉ tot.map Prod.fst) :
    dlookup (tot.foldl (fun acc kv => dinsert acc kv.1 (g acc kv)) d) k = dlookup d k := by
  induction tot generalizing d with
  | nil => rfl
  | cons kv rest ih =>
    have hk : k ≠ kv.1 := fun hh => h (by simp [hh])
    have hrest : k ∉ rest.map Prod.fst := fun hh => h (by simp [hh])
    rw [List.foldl_cons, ih _ hrest, dlookup_dinsert_ne _ _ hk]

theorem dkeys_default_player : dkeys _default_player_stats = PLAYER_STAT_KEYS := rfl

theorem dkeys_default_team : dkeys _default_team_stats = TEAM_STAT_KEYS := rfl

theorem inner_keys_of_inv {sch : List String} {w : WeekDict} {wk : String}
    (h1 : ∀ x ∈ w, ∀ y ∈ x.2, dkeys (y.2 : StatMap) = sch) :
    ∀ y ∈ dgetD w wk ([] : StatDict), dkeys (y.2 : StatMap) = sch := by
  intro y hy
  unfold dgetD at hy
  cases hL : dlookup w wk with
  | none => rw [hL] at hy; simp at hy
  | some i =>
    rw [hL] at hy
    exact h1 (wk, i) (dlookup_mem hL) y hy

theorem addstats_base_keys {sch : List String} (d : StatDict) (p : String)
    (h : ∀ y ∈ d, dkeys (y.2 : StatMap) = sch) :
    dkeys (dgetD d p (defaultSchema sch)) = sch := by
  unfold dgetD
  cases hL : dlookup d p with
  | none => exact dkeys_defaultSchema sch
  | some sm => exact h (p, sm) (dlookup_mem hL)

theorem accumEntity_inv {sch : List String} {wk : String} {ws : WeekDict × StatDict}
    (pp : String × StatMap)
    (h1 : ∀ x ∈ ws.1, ∀ y ∈ x.2, dkeys (y.2 : StatMap) = sch)
    (h2 : ∀ y ∈ ws.2, dkeys (y.2 : StatMap) = sch) :
    (∀ x ∈ (accumEntity sch wk ws pp).1, ∀ y ∈ x.2, dkeys (y.2 : StatMap) = sch)
    ∧ (∀ y ∈ (accumEntity sch wk ws pp).2, dkeys (y.2 : StatMap) = sch) := by
  have hinner := @inner_keys_of_inv sch ws.1 wk h1
  constructor
  · intro x hx y hy
    rcases mem_dinsert hx with hx' | hx'
    · exact h1 x hx' y hy
    · subst hx'
      rcases mem_dinsert hy with hy' | hy'
      · exact hinner y hy'
      · subst hy'
        exact add_stats_dkeys (addstats_base_keys _ _ hinner) (fun a ha => ha)
  · intro y hy
    rcases mem_dinsert hy with hy' | hy'
    · exact h2 y hy'
    · subst hy'
      exact add_stats_dkeys (addstats_base_keys _ _ h2) (fun a ha => ha)

theorem accumEntity_fold_inv {sch : List String} {wk : String} (block : StatDict)
    (ws : WeekDict × StatDict)
    (h1 : ∀ x ∈ ws.1, ∀ y ∈ x.2, dkeys (y.2 : StatMap) = sch)
    (h2 : ∀ y ∈ ws.2, dkeys (y.2 : StatMap) = sch) :
    (∀ x ∈ (block.foldl (accumEntity sch wk) ws).1, ∀ y ∈ x.2,
        dkeys (y.2 : StatMap) = sch)
    ∧ (∀ y ∈ (block.foldl (accumEntity sch wk) ws).2, dkeys (y.2 : StatMap) = sch) := by
  induction block generalizing ws with
  | nil => exact ⟨h1, h2⟩
  | cons pp rest ih =>
    rw [List.foldl_cons]
    obtain ⟨g1, g2⟩ := accumEntity_inv pp h1 h2
    exact ih _ g1 g2

theorem stepRecord_inv {s s' : MergeState} {r : SeriesRec}
    (h : stepRecord s r = some s')
    (hwp : ∀ x ∈ s.weekly_players, ∀ y ∈ x.2, dkeys (y.2 : StatMap) = PLAYER_STAT_KEYS)
    (hwt : ∀ x ∈ s.weekly_teams, ∀ y ∈ x.2, dkeys (y.2 : StatMap) = TEAM_STAT_KEYS)
    (hsp : ∀ y ∈ s.season_players, dkeys (y.2 : StatMap) = PLAYER_STAT_KEYS)
    (hst : ∀ y ∈ s.season_teams, dkeys (y.2 : StatMap) = TEAM_STAT_KEYS) :
    (∀ x ∈ s'.weekly_players, ∀ y ∈ x.2, dkeys (y.2 : StatMap) = PLAYER_STAT_KEYS)
    ∧ (∀ x ∈ s'.weekly_teams, ∀ y ∈ x.2, dkeys (y.2 : StatMap) = TEAM_STAT_KEYS)
    ∧ (∀ y ∈ s'.season_players, dkeys (y.2 : StatMap) = PLAYER_STAT_KEYS)
    ∧ (∀ y ∈ s'.season_teams, dkeys (y.2 : StatMap) = TEAM_STAT_KEYS) := by
  rcases r with ⟨date, players, teams⟩
  cases date with
  | none =>
    simp only [stepRecord, Option.some.injEq] at h
    subst h
    exact ⟨hwp, hwt, hsp, hst⟩
  | some ds =>
    by_cases hds : ds = ""
    · simp only [stepRecord, if_pos hds, Option.some.injEq] at h
      subst h
      exact ⟨hwp, hwt, hsp, hst⟩
    · simp only [stepRecord, if_neg hds] at h
      cases hiso : _iso_week_key ds with
      | none => rw [hiso] at h; cases h
      | some wk =>
        rw [hiso] at h
        simp only [Option.some.injEq] at h
        subst h
        obtain ⟨p1, p2⟩ := accumEntity_fold_inv players
          (s.weekly_players, s.season_players) hwp hsp
        obtain ⟨t1, t2⟩ := accumEntity_fold_inv teams
          (s.weekly_teams, s.season_teams) hwt hst
        exact ⟨p1, t1, p2, t2⟩

theorem mergeLoop_inv {rs : List SeriesRec} {s s1 : MergeState}
    (h : mergeLoop rs s = some s1)
    (hwp : ∀ x ∈ s.weekly_players, ∀ y ∈ x.2, dkeys (y.2 : StatMap) = PLAYER_STAT_KEYS)
    (hwt : ∀ x ∈ s.weekly_teams, ∀ y ∈ x.2, dkeys (y.2 : StatMap) = TEAM_STAT_KEYS)
    (hsp : ∀ y ∈ s.season_players, dkeys (y.2 : StatMap) = PLAYER_STAT_KEYS)
    (hst : ∀ y ∈ s.season_teams, dkeys (y.2 : StatMap) = TEAM_STAT_KEYS) :
    (∀ x ∈ s1.weekly_players, ∀ y ∈ x.2, dkeys (y.2 : StatMap) = PLAYER_STAT_KEYS)
    ∧ (∀ x ∈ s1.weekly_teams, ∀ y ∈ x.2, dkeys (y.2 : StatMap) = TEAM_STAT_KEYS)
    ∧ (∀ y ∈ s1.season_players, dkeys (y.2 : StatMap) = PLAYER_STAT_KEYS)
    ∧ (∀ y ∈ s1.season_teams, dkeys (y.2 : StatMap) = TEAM_STAT_KEYS) := by
  induction rs generalizing s with
  | nil =>
    simp only [mergeLoop, Option.some.injEq] at h
    subst h
    exact ⟨hwp, hwt, hsp, hst⟩
  | cons r rest ih =>
    simp only [mergeLoop] at h
    cases hst2 : stepRecord s r with
    | none => rw [hst2] at h; cases h
    | some s2 =>
      rw [hst2] at h
      obtain ⟨g1, g2, g3, g4⟩ := stepRecord_inv hst2 hwp hwt hsp hst
      exact ih h g1 g2 g3 g4

theorem playerTotalsStep_true_eq (preg : StatDict) (pt : String × StatMap) :
    playerTotalsStep true preg pt
      = dinsert (if dcontains preg pt.1 then preg
            else dinsert preg pt.1 _default_player_stats) pt.1
          (buildOverwrite _default_player_stats pt.2) := by
  simp [playerTotalsStep]

theorem playerTotalsStep_false_eq (preg : StatDict) (pt : String × StatMap) :
    playerTotalsStep false preg pt
      = dmodify (if dcontains preg pt.1 then preg
            else dinsert preg pt.1 _default_player_stats) pt.1
          (fun cur => addInto cur pt.2) := by
  simp [playerTotalsStep]

theorem teamTotalsStep_true_eq (treg : TeamDict) (tt : String × StatMap) :
    teamTotalsStep true treg tt
      = dmodify (if dcontains treg tt.1 then treg
            else dinsert treg tt.1
              ⟨_default_team_stats,
               match dlookup treg tt.1 with
               | some e => e.players
               | none => []⟩) tt.1
          (fun e => { e with lifetime_stats := buildOverwrite _default_team_stats tt.2 }) := by
  simp [teamTotalsStep]

theorem teamTotalsStep_false_eq (treg : TeamDict) (tt : String × StatMap) :
    teamTotalsStep false treg tt
      = dmodify (if dcontains treg tt.1 then treg
            else dinsert treg tt.1
              ⟨_default_team_stats,
               match dlookup treg tt.1 with
               | some e => e.players
               | none => []⟩) tt.1
          (fun e => { e with lifetime_stats := addInto e.lifetime_stats tt.2 }) := by
  simp [teamTotalsStep]

theorem playerTotalsStep_keys_inv (ow : Bool) {preg : StatDict} {pt : String × StatMap}
    (hinv : ∀ y ∈ preg, dkeys (y.2 : StatMap) = PLAYER_STAT_KEYS)
    (hsub : ∀ kv ∈ pt.2, (kv : String × Int).1 ∈ PLAYER_STAT_KEYS) :
    ∀ y ∈ playerTotalsStep ow preg pt, dkeys (y.2 : StatMap) = PLAYER_STAT_KEYS := by
  have hinv' : ∀ y ∈ (if dcontains preg pt.1 then preg
      else dinsert preg pt.1 _default_player_stats), dkeys (y.2 : StatMap) = PLAYER_STAT_KEYS := by
    by_cases hc : dcontains preg pt.1
    · rw [if_pos hc]
      exact hinv
    · rw [if_neg hc]
      intro y hy
      rcases mem_dinsert hy with h' | h'
      · exact hinv y h'
      · subst h'
        exact dkeys_default_player
  cases ow
  · rw [playerTotalsStep_false_eq]
    intro y hy
    rcases mem_dmodify hy with h' | ⟨v, hv, hy'⟩
    · exact hinv' y h'
    · subst hy'
      exact addInto_dkeys (hinv' (pt.1, v) hv) hsub
  · rw [playerTotalsStep_true_eq]
    intro y hy
    rcases mem_dinsert hy with h' | h'
    · exact hinv' y h'
    · subst h'
      exact buildOverwrite_dkeys dkeys_default_player hsub

theorem teamTotalsStep_keys_inv (ow : Bool) {treg : TeamDict} {tt : String × StatMap}
    (hinv : ∀ y ∈ treg, dkeys (y.2 : TeamEntry).lifetime_stats = TEAM_STAT_KEYS)
    (hsub : ∀ kv ∈ tt.2, (kv : String × Int).1 ∈ TEAM_STAT_KEYS) :
    ∀ y ∈ teamTotalsStep ow treg tt,
      dkeys (y.2 : TeamEntry).lifetime_stats = TEAM_STAT_KEYS := by
  have hinv' : ∀ y ∈ (if dcontains treg tt.1 then treg
      else dinsert treg tt.1
        (⟨_default_team_stats,
          match dlookup treg tt.1 with
          | some e => e.players
          | none => []⟩ : TeamEntry)),
      dkeys (y.2 : TeamEntry).lifetime_stats = TEAM_STAT_KEYS := by
    by_cases hc : dcontains treg tt.1
    · rw [if_pos hc]
      exact hinv
    · rw [if_neg hc]
      intro y hy
      rcases mem_dinsert hy with h' | h'
      · exact hinv y h'
      · subst h'
        exact dkeys_default_team
  cases ow
  · rw [teamTotalsStep_false_eq]
    intro y hy
    rcases mem_dmodify hy with h' | ⟨v, hv, hy'⟩
    · exact hinv' y h'
    · subst hy'
      exact addInto_dkeys (hinv' (tt.1, v) hv) hsub
  · rw [teamTotalsStep_true_eq]
    intro y hy
    rcases mem_dmodify hy with h' | ⟨v, hv, hy'⟩
    · exact hinv' y h'
    · subst hy'
      exact buildOverwrite_dkeys dkeys_default_team hsub

theorem player_fold_keys_inv (ow : Bool) {ptot : StatDict} {preg : StatDict}
    (hinv : ∀ y ∈ preg, dkeys (y.2 : StatMap) = PLAYER_STAT_KEYS)
    (hsub : ∀ pt ∈ ptot, ∀ kv ∈ pt.2, (kv : String × Int).1 ∈ PLAYER_STAT_KEYS) :
    ∀ y ∈ ptot.foldl (playerTotalsStep ow) preg,
      dkeys (y.2 : StatMap) = PLAYER_STAT_KEYS := by
  induction ptot generalizing preg with
  | nil => exact hinv
  | cons pt rest ih =>
    rw [List.foldl_cons]
    exact ih (playerTotalsStep_keys_inv ow hinv (hsub pt (List.mem_cons_self _ _)))
      (fun q hq => hsub q (List.mem_cons_of_mem _ hq))

theorem team_fold_keys_inv (ow : Bool) {ttot : StatDict} {treg : TeamDict}
    (hinv : ∀ y ∈ treg, dkeys (y.2 : TeamEntry).lifetime_stats = TEAM_STAT_KEYS)
    (hsub : ∀ tt ∈ ttot, ∀ kv ∈ tt.2, (kv : String × Int).1 ∈ TEAM_STAT_KEYS) :
    ∀ y ∈ ttot.foldl (teamTotalsStep ow) treg,
      dkeys (y.2 : TeamEntry).lifetime_stats = TEAM_STAT_KEYS := by
  induction ttot generalizing treg with
  | nil => exact hinv
  | cons tt rest ih =>
    rw [List.foldl_cons]
    exact ih (teamTotalsStep_keys_inv ow hinv (hsub tt (List.mem_cons_self _ _)))
      (fun q hq => hsub q (List.mem_cons_of_mem _ hq))

theorem buildOverwrite_lookup_not_mem {tot : StatMap} {k : String}
    (default : StatMap) (h : k ∉ tot.map Prod.fst) :
    dlookup (buildOverwrite default tot) k = dlookup default k :=
  fold_dinsert_lookup_not_mem (fun _ kv => kv.2) tot default h

/-- C3 (with the spec's StatMap typing of inputs made explicit): every
stat map in merge_all's weekly and season outputs has exactly its schema
key set; every stats map written by update_registry_from_totals has
exactly its schema key set, provided the totals maps carry only schema
keys (as merge_all outputs do) and the prior registry entries are
well-formed; and a schema key absent from an overwrite-path totals map is
written as 0, not dropped. -/
theorem C3_statmaps_exactly_schema :
    (∀ records wkly season, merge_all records = some (wkly, season) →
      (∀ wb ∈ wkly,
        (∀ y ∈ (wb : String × WeekBucket).2.players, dkeys (y.2 : StatMap) = PLAYER_STAT_KEYS)
        ∧ (∀ y ∈ wb.2.teams, dkeys (y.2 : StatMap) = TEAM_STAT_KEYS))
      ∧ (∀ y ∈ season.players, dkeys (y.2 : StatMap) = PLAYER_STAT_KEYS)
      ∧ (∀ y ∈ season.teams, dkeys (y.2 : StatMap) = TEAM_STAT_KEYS))
    ∧ (∀ reg ptot ttot ow,
        (∀ pt ∈ ptot, ∀ kv ∈ (pt : String × StatMap).2,
          (kv : String × Int).1 ∈ PLAYER_STAT_KEYS) →
        (∀ tt ∈ ttot, ∀ kv ∈ (tt : String × StatMap).2,
          (kv : String × Int).1 ∈ TEAM_STAT_KEYS) →
        (∀ y ∈ (reg : Registry).players, dkeys (y.2 : StatMap) = PLAYER_STAT_KEYS) →
        (∀ y ∈ reg.teams, dkeys (y.2 : TeamEntry).lifetime_stats = TEAM_STAT_KEYS) →
        (∀ y ∈ (update_registry_from_totals reg ptot ttot ow).1.players,
          dkeys (y.2 : StatMap) = PLAYER_STAT_KEYS)
        ∧ (∀ y ∈ (update_registry_from_totals reg ptot ttot ow).1.teams,
            dkeys (y.2 : TeamEntry).lifetime_stats = TEAM_STAT_KEYS))
    ∧ (∀ (tot : StatMap) (k : String), k ∉ dkeys tot → k ∈ PLAYER_STAT_KEYS →
        dlookup (buildOverwrite _default_player_stats tot) k = some 0) := by
  refine ⟨?_, ?_, ?_⟩
  · intro records wkly season h
    unfold merge_all at h
    rw [Option.map_eq_some'] at h
    obtain ⟨s1, hloop, hfin⟩ := h
    unfold finalizeMerge at hfin
    injection hfin with hw hs
    subst hw
    subst hs
    have hvac1 : ∀ x ∈ ([] : WeekDict), ∀ y ∈ x.2, dkeys (y.2 : StatMap) = PLAYER_STAT_KEYS :=
      fun x hx => absurd hx (List.not_mem_nil x)
    have hvac2 : ∀ x ∈ ([] : WeekDict), ∀ y ∈ x.2, dkeys (y.2 : StatMap) = TEAM_STAT_KEYS :=
      fun x hx => absurd hx (List.not_mem_nil x)
    have hvac3 : ∀ y ∈ ([] : StatDict), dkeys (y.2 : StatMap) = PLAYER_STAT_KEYS :=
      fun y hy => absurd hy (List.not_mem_nil y)
    have hvac4 : ∀ y ∈ ([] : StatDict), dkeys (y.2 : StatMap) = TEAM_STAT_KEYS :=
      fun y hy => absurd hy (List.not_mem_nil y)
    obtain ⟨iwp, iwt, isp, ist⟩ := mergeLoop_inv hloop hvac1 hvac2 hvac3 hvac4
    refine ⟨?_, isp, ist⟩
    intro wb hwb
    obtain ⟨wk, _, hwb'⟩ := List.mem_map.mp hwb
    subst hwb'
    exact ⟨inner_keys_of_inv iwp, inner_keys_of_inv iwt⟩
  · intro reg ptot ttot ow hpsub htsub hpreg htreg
    exact ⟨player_fold_keys_inv ow hpreg hpsub, team_fold_keys_inv ow htreg htsub⟩
  · intro tot k hk hkP
    rw [buildOverwrite_lookup_not_mem _default_player_stats hk]
    exact dlookup_defaultSchema hkP

/-- Witness for C3 at a concrete merge run and a concrete overwrite
reconciliation. -/
theorem C3_witness :
    (∀ y ∈ (update_registry_from_totals (⟨[], []⟩ : Registry)
        [("Ana", [("points", 14), ("sinks", 3)])] [("T", [("total_points", 5)])] true).1.players,
      dkeys (y.2 : StatMap) = PLAYER_STAT_KEYS)
    ∧ (∀ y ∈ (SeasonTotals.mk [("Ana", witAnaMap)] []).players,
        dkeys (y.2 : StatMap) = PLAYER_STAT_KEYS)
    ∧ dlookup (buildOverwrite _default_player_stats [("points", 14), ("sinks", 3)])
        "rim_hits" = some 0 := by
  refine ⟨?_, ?_, ?_⟩
  · exact (C3_statmaps_exactly_schema.2.1 ⟨[], []⟩
      [("Ana", [("points", 14), ("sinks", 3)])] [("T", [("total_points", 5)])] true
      (by decide) (by decide) (by decide) (by decide)).1
  · exact (C3_statmaps_exactly_schema.1 [witRecord2]
      [("2025-W23", WeekBucket.mk [("Ana", witAnaMap)] [])]
      (SeasonTotals.mk [("Ana", witAnaMap)] []) (by decide)).2.1
  · exact C3_statmaps_exactly_schema.2.2
      [("points", 14), ("sinks", 3)] "rim_hits" (by decide) (by decide)
